import Mathlib

/-!
Verification development for the rematching core (`graph.cpp`) and the
`remesh.cpp` driver.  The C++ graph is embedded shallowly: vertex
coordinates are an abstract type `α` and the Euclidean norm
`(CurVert - OVert).norm()` is an abstract distance function
`d : α → α → W`, so every definition stays computable.  Machine `int`
indices are `Nat` (all indices handled by the code are non-negative);
the one place the code can produce a negative `int` (`NumAdjacents`)
is modelled with `Int` subtraction.
-/

namespace Rmt

/-- Mesh edges, `typedef std::pair<int, int> Edge` in `graph.cpp`. -/
abbrev Edge := Nat × Nat

/-- Lexicographic order on pairs: the semantics of `operator<` on
`std::pair<int,int>`, used by `std::sort` and `std::set<Edge>`. -/
def edgeLE (a b : Edge) : Prop :=
  a.1 < b.1 ∨ (a.1 = b.1 ∧ a.2 ≤ b.2)

/-- Strict lexicographic order on pairs. -/
def edgeLT (a b : Edge) : Prop :=
  a.1 < b.1 ∨ (a.1 = b.1 ∧ a.2 < b.2)

instance : DecidableRel edgeLE := fun a b => by
  unfold edgeLE; exact inferInstance

instance : DecidableRel edgeLT := fun a b => by
  unfold edgeLT; exact inferInstance

instance : IsTotal Edge edgeLE :=
  ⟨by intro a b; unfold edgeLE; omega⟩

instance : IsTrans Edge edgeLE :=
  ⟨by intro a b c; unfold edgeLE; omega⟩

instance : IsAntisymm Edge edgeLE := by
  constructor
  intro a b h h'
  unfold edgeLE at h h'
  have h1 : a.1 = b.1 ∧ a.2 = b.2 := by omega
  exact Prod.ext h1.1 h1.2

instance : IsTrans Edge edgeLT :=
  ⟨by intro a b c; unfold edgeLT; omega⟩

instance : IsIrrefl Edge edgeLT :=
  ⟨by intro a; unfold edgeLT; omega⟩

/-- Removal of adjacent duplicates: the semantics of `std::unique` on the
sorted edge vector (line 45 of `graph.cpp`). -/
def eraseAdjDup : List Edge → List Edge
  | [] => []
  | [x] => [x]
  | x :: y :: xs => if x = y then eraseAdjDup (y :: xs) else x :: eraseAdjDup (y :: xs)

/-- Model of `std::sort` followed by `std::unique` on a vector of edges.
For the total lexicographic order a sorted permutation is unique, so the
unstable `std::sort` is modelled exactly by `List.insertionSort`. -/
def sortUnique (l : List Edge) : List Edge :=
  eraseAdjDup (List.insertionSort edgeLE l)

/-- Model of the contents of a `std::set<Edge>` after inserting all
elements of `l`, iterated in order: the sorted list of the distinct
elements of `l`. -/
def setList (l : List Edge) : List Edge :=
  List.insertionSort edgeLE l.dedup

/-- One row of the face matrix `F`: a triangle of vertex indices. -/
structure Tri where
  a : Nat
  b : Nat
  c : Nat
deriving DecidableEq

/-- The six directed edges a triangle contributes in the triangle-list
constructor (lines 36-42 of `graph.cpp`): each of the three sides, first
normalized as (min, max), then as (max, min). -/
def triEdges (t : Tri) : List Edge :=
  [ (min t.a t.b, max t.a t.b), (min t.b t.c, max t.b t.c), (min t.c t.a, max t.c t.a),
    (max t.a t.b, min t.a t.b), (max t.b t.c, min t.b t.c), (max t.c t.a, min t.c t.a) ]

/-- The full directed edge list harvested from the triangle list. -/
def rawTriEdges (F : List Tri) : List Edge :=
  (F.map triEdges).flatten

/-- Both orientations of one undirected edge, as inserted into the
`std::set<Edge>` by the edge-list and edge-set constructors
(lines 79-80 and 114-115 of `graph.cpp`). -/
def symEdges (E : List Edge) : List Edge :=
  (E.map (fun e => [(min e.1 e.2, max e.1 e.2), (max e.1 e.2, min e.1 e.2)])).flatten

/-- The graph representation of `rmt::Graph`: vertex array `m_Verts`,
CSR offset array `m_Idxs` and flat adjacency array `m_Adjs` of
(neighbor index, edge weight) pairs. -/
structure Graph (α W : Type) where
  verts : List α
  idxs : List Nat
  adjs : List (Nat × W)
deriving DecidableEq

/-- Loop state of the CSR streaming loop shared by the three
constructors (`CurNode`, `CurVert`, and the partially built arrays). -/
structure CSRState (α W : Type) where
  curNode : Nat
  curVert : α
  idxs : List Nat
  adjs : List (Nat × W)

variable {α W : Type}

/-- One iteration of the streaming loop (lines 52-64 of `graph.cpp`):
if the edge's first endpoint differs from `CurNode`, advance `CurNode`,
record the offset and reload `CurVert`; then append the adjacency entry
with the distance between `CurVert` and the other endpoint's vertex. -/
def csrStep [Inhabited α] (V : List α) (d : α → α → W) (st : CSRState α W) (e : Edge) :
    CSRState α W :=
  let st' :=
    if e.1 ≠ st.curNode then
      CSRState.mk (st.curNode + 1) (V.getD (st.curNode + 1) default)
        (st.idxs.set (st.curNode + 1) st.adjs.length) st.adjs
    else st
  CSRState.mk st'.curNode st'.curVert st'.idxs
    (st'.adjs ++ [(e.2, d st'.curVert (V.getD e.2 default))])

/-- The CSR construction shared by the three constructors: `m_Idxs` is
zero-initialized with `nVerts + 1` entries, the loop streams over the
prepared edge list, and the final offset `m_Idxs[CurNode + 1]` is
written after the loop (lines 47-65 of `graph.cpp`). -/
def buildCSR [Inhabited α] (V : List α) (d : α → α → W) (es : List Edge) : Graph α W :=
  let init : CSRState α W :=
    CSRState.mk 0 (V.getD 0 default) (List.replicate (V.length + 1) 0) []
  let st := es.foldl (csrStep V d) init
  Graph.mk V (st.idxs.set (st.curNode + 1) st.adjs.length) st.adjs

/-- The triangle-list constructor `Graph::Graph(V, F)` (lines 23-66):
collect six directed edges per triangle, sort, de-duplicate, stream. -/
def Graph.ofTris [Inhabited α] (V : List α) (d : α → α → W) (F : List Tri) : Graph α W :=
  buildCSR V d (sortUnique (rawTriEdges F))

/-- The edge-list constructor `Graph::Graph(V, E)` for
`std::vector<std::pair<int,int>>` (lines 68-101): insert both
orientations of every listed edge into a `std::set`, then stream. -/
def Graph.ofEdgeList [Inhabited α] (V : List α) (d : α → α → W) (E : List Edge) : Graph α W :=
  buildCSR V d (setList (symEdges E))

/-- The edge-set constructor `Graph::Graph(V, E)` for
`std::set<std::pair<int,int>>` (lines 103-136); its body is the
edge-list body iterated over the set, so the embedding takes the set's
iteration sequence as a list. -/
def Graph.ofEdgeSet [Inhabited α] (V : List α) (d : α → α → W) (E : List Edge) : Graph α W :=
  buildCSR V d (setList (symEdges E))

/-- `Graph::NumVertices` (line 175). -/
def numVertices (g : Graph α W) : Nat := g.verts.length

/-- `Graph::NumEdges` (line 176): `m_Adjs.size() / 2`. -/
def numEdges (g : Graph α W) : Nat := g.adjs.length / 2

/-- `Graph::NumAdjacents` (line 177): `m_Idxs[i+1] - m_Idxs[i]` with
`int` subtraction, which can be negative on an ill-formed offset array. -/
def numAdjacents (g : Graph α W) (i : Nat) : Int :=
  (g.idxs.getD (i + 1) 0 : Int) - (g.idxs.getD i 0 : Int)

/-- The number of iterations the neighbor loops actually perform:
`for (jj = 0; jj < DegN; ++jj)` with `int DegN` runs
`max(DegN, 0)` times. -/
def natAdjacents (g : Graph α W) (i : Nat) : Nat :=
  (numAdjacents g i).toNat

/-- `Graph::GetVertex` (line 179). -/
def getVertex [Inhabited α] (g : Graph α W) (i : Nat) : α :=
  g.verts.getD i default

/-- `Graph::GetAdjacent` (lines 182-185): `m_Adjs[m_Idxs[node_i] + adj_i]`. -/
def getAdjacent [Inhabited W] (g : Graph α W) (i j : Nat) : Nat × W :=
  g.adjs.getD (g.idxs.getD i 0 + j) default

/-- The neighbor indices of vertex `u` as enumerated by the code's loop
`GetAdjacent(N, jj).first` for `jj` in `[0, NumAdjacents(N))`
(lines 222-227 of `graph.cpp`). -/
def adjFirsts [Inhabited W] (g : Graph α W) (u : Nat) : List Nat :=
  (List.range (natAdjacents g u)).map (fun j => (getAdjacent g u j).1)

/-- State of `Graph::ConnectedComponents` (lines 188-234): the label
array `CC`, the 0/1 flag vector `Visited`, and the counter `CurCC`. -/
structure CCState where
  cc : List Nat
  visited : List Nat
  curCC : Nat
deriving DecidableEq

/-- Index of the first zero entry of a list, if any. -/
def findFirstZero : List Nat → Option Nat
  | [] => none
  | x :: xs => if x = 0 then some 0 else (findFirstZero xs).map (· + 1)

/-- Root search of `ConnectedComponents` (lines 200-208): `Root` is
initialized to `0` and set to the first index whose `Visited` flag is
zero. -/
def findRoot (visited : List Nat) : Nat :=
  (findFirstZero visited).getD 0

/-- The inner breadth-first loop of `ConnectedComponents`
(lines 210-228), with explicit fuel: pop the queue front; if already
visited, continue; otherwise label it with `CurCC`, mark it visited and
push all its neighbors.  `none` is returned only on fuel exhaustion
with a non-empty queue. -/
def bfsLoop [Inhabited W] (g : Graph α W) : Nat → List Nat → CCState → Option CCState
  | _, [], st => some st
  | 0, _ :: _, _ => none
  | fuel + 1, v :: q, st =>
    if st.visited.getD v 0 ≠ 0 then
      bfsLoop g fuel q st
    else
      bfsLoop g fuel (q ++ adjFirsts g v)
        (CCState.mk (st.cc.set v st.curCC) (st.visited.set v 1) st.curCC)

/-- The outer loop of `ConnectedComponents` (lines 198-231), with
explicit fuel: while `Visited.sum() < NumVertices()`, pick the lowest
unvisited root, run the breadth-first traversal seeded with it, then
increment `CurCC`. -/
def ccLoop [Inhabited W] (g : Graph α W) (inner : Nat) : Nat → CCState → Option (List Nat)
  | 0, st =>
    if st.visited.sum < numVertices g then none else some st.cc
  | fuel + 1, st =>
    if st.visited.sum < numVertices g then
      match bfsLoop g inner [findRoot st.visited] st with
      | none => none
      | some st' => ccLoop g inner fuel (CCState.mk st'.cc st'.visited (st'.curCC + 1))
    else some st.cc

/-- Fuel that provably suffices for every run of the inner
breadth-first loop. -/
def innerFuel (g : Graph α W) : Nat :=
  1 + numVertices g * (g.adjs.length + 2)

/-- Initial state of `ConnectedComponents`: `CC` zero-filled of length
`n` and `Visited` zero (lines 190-196). -/
def ccInit (g : Graph α W) : CCState :=
  CCState.mk (List.replicate (numVertices g) 0) (List.replicate (numVertices g) 0) 0

/-- `Graph::ConnectedComponents` as a fueled computation; `none` means
the fuel bounds were insufficient (which the termination theorem rules
out for well-formed graphs). -/
def connectedComponentsOpt [Inhabited W] (g : Graph α W) : Option (List Nat) :=
  ccLoop g (innerFuel g) (numVertices g) (ccInit g)

/-- `Graph::ConnectedComponents` (lines 188-234). -/
def connectedComponents [Inhabited W] (g : Graph α W) : List Nat :=
  (connectedComponentsOpt g).getD []

/-- One directed step along the adjacency structure, exactly as the
breadth-first loop follows it: `v` occurs among the neighbors the code
enumerates for `u`. -/
def Step [Inhabited W] (g : Graph α W) (u v : Nat) : Prop :=
  v ∈ adjFirsts g u

/-- Connectivity by a path in the graph: the reflexive-transitive
closure of `Step`. -/
def Conn [Inhabited W] (g : Graph α W) (u v : Nat) : Prop :=
  Relation.ReflTransGen (Step g) u v

/-- Well-formedness of the CSR adjacency, as the spec's data-model
invariants state it: the offset array has length `n + 1`, starts at
`0`, is monotone, ends at `|adj|`; all stored neighbor indices are in
range; and adjacency is symmetric. -/
def CSRWF [Inhabited W] (g : Graph α W) : Prop :=
  g.idxs.length = numVertices g + 1 ∧
  g.idxs.getD 0 0 = 0 ∧
  (∀ i, i < numVertices g → g.idxs.getD i 0 ≤ g.idxs.getD (i + 1) 0) ∧
  g.idxs.getD (numVertices g) 0 = g.adjs.length ∧
  (∀ e ∈ g.adjs, e.1 < numVertices g) ∧
  (∀ u, u < numVertices g → ∀ v, v < numVertices g →
    (v ∈ adjFirsts g u ↔ u ∈ adjFirsts g v))

instance [Inhabited W] (g : Graph α W) : Decidable (CSRWF g) := by
  unfold CSRWF; exact inferInstance

/-- Validity of one triangle row with respect to a vertex count:
indices in range and pairwise distinct. -/
def TriValid (n : Nat) (t : Tri) : Prop :=
  t.a < n ∧ t.b < n ∧ t.c < n ∧ t.a ≠ t.b ∧ t.b ≠ t.c ∧ t.a ≠ t.c

instance (n : Nat) (t : Tri) : Decidable (TriValid n t) := by
  unfold TriValid; exact inferInstance

/-- Validity of a mesh: every triangle row is valid. -/
def MeshValid (n : Nat) (F : List Tri) : Prop :=
  ∀ t ∈ F, TriValid n t

instance (n : Nat) (F : List Tri) : Decidable (MeshValid n F) := by
  unfold MeshValid; exact inferInstance

/-- Every vertex index below `n` occurs in some triangle (no isolated
vertices). -/
def CoversVerts (n : Nat) (F : List Tri) : Prop :=
  ∀ i, i < n → ∃ t ∈ F, i = t.a ∨ i = t.b ∨ i = t.c

instance (n : Nat) (F : List Tri) : Decidable (CoversVerts n F) := by
  unfold CoversVerts; exact Nat.decidableBallLT n _

/-- Unordered side relation of a triangle: `{u, v}` is one of the three
sides of `t`. -/
def SideOf (t : Tri) (u v : Nat) : Prop :=
  (u = t.a ∧ v = t.b) ∨ (u = t.b ∧ v = t.c) ∨ (u = t.c ∧ v = t.a) ∨
  (v = t.a ∧ u = t.b) ∨ (v = t.b ∧ u = t.c) ∨ (v = t.c ∧ u = t.a)

instance (t : Tri) (u v : Nat) : Decidable (SideOf t u v) := by
  unfold SideOf; exact inferInstance

/-- Undirected edge relation of the input triangulation. -/
def MeshEdge (F : List Tri) (u v : Nat) : Prop :=
  ∃ t ∈ F, SideOf t u v

instance (F : List Tri) (u v : Nat) : Decidable (MeshEdge F u v) := by
  unfold MeshEdge; exact inferInstance

/-- The list of a triangle list's edges, one ordered pair per side, as
a caller would pass them to the edge-list constructor. -/
def edgesOfTris (F : List Tri) : List Edge :=
  (F.map (fun t => [(t.a, t.b), (t.b, t.c), (t.c, t.a)])).flatten

/-! Driver model: the control flow of `main` in `remesh.cpp`, with the
outside world (file loading and mesh export succeeding or failing, and
the number of triangles the remeshing emits) abstracted as input data,
and the observable outcome (exit status, whether `ExportMesh` was
reached, whether the empty-mesh diagnostic was printed, whether the
weight map stage ran) as output data. -/

/-- Abstract input of one `main` run in `remesh.cpp`. -/
structure DriverInput where
  loadOk : Bool
  exportOk : Bool
  ffRows : Nat
deriving DecidableEq

/-- Observable outcome of one `main` run in `remesh.cpp`. -/
structure DriverResult where
  exitCode : Int
  exportCalled : Bool
  emptyDiagnostic : Bool
  weightMapComputed : Bool
deriving DecidableEq

/-- Control flow of `main` (lines 42-163 of `remesh.cpp`): a failed
load returns `-1` before exporting; a failed export returns `-1`; if
the emitted triangle matrix `FF` has zero rows the driver prints the
diagnostic message and returns `0` without computing the weight map;
otherwise it computes the weight map and returns `0`. -/
def remeshDriver (inp : DriverInput) : DriverResult :=
  if inp.loadOk = false then DriverResult.mk (-1) false false false
  else if inp.exportOk = false then DriverResult.mk (-1) true false false
  else if inp.ffRows = 0 then DriverResult.mk 0 true true false
  else DriverResult.mk 0 true false true

/-! Frame model for construction: the caller's vertex array and the
constructed graph as one state, with an operation that replaces the
caller's array after construction.  Because `Graph::Graph` copies every
row into `m_Verts` (lines 25-28), the graph component is a function of
the values at construction time only. -/

/-- A caller's array plus the graph constructed from it. -/
structure CallerState (α W : Type) where
  callerVerts : List α
  graph : Graph α W

/-- Construction: build the graph from the caller's current array. -/
def construct [Inhabited α] (V : List α) (d : α → α → W) (F : List Tri) : CallerState α W :=
  CallerState.mk V (Graph.ofTris V d F)

/-- Mutation of the caller's array after construction returns. -/
def mutateCaller (st : CallerState α W) (V' : List α) : CallerState α W :=
  CallerState.mk V' st.graph

/-! Concrete instances used by witnesses and counterexamples. -/

/-- A concrete distance function on natural-number coordinates. -/
def exDist : Nat → Nat → Nat := fun x y => max x y - min x y

/-- Three concrete vertex coordinates. -/
def exV3 : List Nat := [5, 9, 14]

/-- Four concrete vertex coordinates; vertex `3` is isolated when the
mesh is `exF`. -/
def exV4 : List Nat := [5, 9, 14, 20]

/-- One concrete triangle on vertices `0, 1, 2`. -/
def exF : List Tri := [Tri.mk 0 1 2]

end Rmt

namespace Rmt

/-! List access toolbox. -/

lemma getD_append_left {β : Type} (l l' : List β) (d : β) (i : Nat) (h : i < l.length) :
    (l ++ l').getD i d = l.getD i d :=
  List.getD_append l l' d i h

lemma getD_append_right {β : Type} (l l' : List β) (d : β) (j : Nat) :
    (l ++ l').getD (l.length + j) d = l'.getD j d := by
  simp [List.getD, List.getElem?_append_right]

lemma getD_oob {β : Type} (l : List β) (d : β) (i : Nat) (h : l.length ≤ i) :
    l.getD i d = d :=
  List.getD_eq_default l d h

lemma getD_set_eq {β : Type} (l : List β) (i : Nat) (x d : β) (h : i < l.length) :
    (l.set i x).getD i d = x := by
  simp [List.getD, List.getElem?_set_self, h]

lemma getD_set_ne {β : Type} (l : List β) (i j : Nat) (x d : β) (h : i ≠ j) :
    (l.set i x).getD j d = l.getD j d := by
  simp [List.getD, List.getElem?_set_ne h]

lemma getD_replicate_zero (k i : Nat) : (List.replicate k (0 : Nat)).getD i 0 = 0 := by
  rcases Nat.lt_or_ge i k with h | h
  · simp [List.getD, List.getElem?_eq_getElem, h]
  · exact getD_oob _ _ _ (by simpa using h)

lemma getD_mem {β : Type} (l : List β) (d : β) (i : Nat) (h : i < l.length) :
    l.getD i d ∈ l := by
  rw [List.getD_eq_getElem l d h]
  exact List.getElem_mem h

/-! Properties of the edge normalization pipeline: `eraseAdjDup`
(`std::unique`), `sortUnique` (`std::sort` + `std::unique`) and
`setList` (`std::set` contents in iteration order). -/

lemma edgeLE_of_edgeLT {a b : Edge} (h : edgeLT a b) : edgeLE a b := by
  unfold edgeLT at h; unfold edgeLE; omega

lemma edgeLT_ne {a b : Edge} (h : edgeLT a b) : a ≠ b := by
  intro hab; subst hab; unfold edgeLT at h; omega

lemma edgeLT_of_le_of_ne {a b : Edge} (h : edgeLE a b) (hne : a ≠ b) : edgeLT a b := by
  unfold edgeLE at h; unfold edgeLT
  rcases h with h | h
  · exact Or.inl h
  · refine Or.inr ⟨h.1, ?_⟩
    rcases Nat.lt_or_ge b.2 a.2 with h2 | h2
    · omega
    · rcases Nat.eq_or_lt_of_le h2 with h3 | h3
      · exact absurd (Prod.ext h.1 (by omega)) hne
      · omega

lemma eraseAdjDup_sublist (l : List Edge) : (eraseAdjDup l).Sublist l := by
  induction l with
  | nil => simp [eraseAdjDup]
  | cons x t ih =>
    cases t with
    | nil => simp [eraseAdjDup]
    | cons y xs =>
      unfold eraseAdjDup
      by_cases hxy : x = y
      · rw [if_pos hxy]
        exact ih.cons x
      · rw [if_neg hxy]
        exact ih.cons₂ x

lemma eraseAdjDup_subset (l : List Edge) : ∀ e ∈ eraseAdjDup l, e ∈ l :=
  fun _ he => (eraseAdjDup_sublist l).mem he

lemma mem_eraseAdjDup (l : List Edge) : ∀ e ∈ l, e ∈ eraseAdjDup l := by
  induction l with
  | nil => simp
  | cons x t ih =>
    cases t with
    | nil => simp [eraseAdjDup]
    | cons y xs =>
      intro e he
      unfold eraseAdjDup
      rcases List.mem_cons.mp he with h | h
      · subst h
        by_cases hxy : e = y
        · rw [if_pos hxy, hxy]
          exact ih y (List.mem_cons_self y xs)
        · rw [if_neg hxy]
          exact List.mem_cons_self e _
      · by_cases hxy : x = y
        · rw [if_pos hxy]
          exact ih e h
        · rw [if_neg hxy]
          exact List.mem_cons.mpr (Or.inr (ih e h))

lemma eraseAdjDup_pairwise_lt (l : List Edge) (h : l.Pairwise edgeLE) :
    (eraseAdjDup l).Pairwise edgeLT := by
  induction l with
  | nil => simp [eraseAdjDup]
  | cons x t ih =>
    cases t with
    | nil => simp [eraseAdjDup]
    | cons y xs =>
      have htail : (y :: xs).Pairwise edgeLE := (List.pairwise_cons.mp h).2
      have hxle : ∀ z ∈ y :: xs, edgeLE x z := (List.pairwise_cons.mp h).1
      unfold eraseAdjDup
      by_cases hxy : x = y
      · rw [if_pos hxy]
        exact ih htail
      · rw [if_neg hxy]
        refine List.pairwise_cons.mpr ⟨?_, ih htail⟩
        intro z hz
        have hzmem : z ∈ y :: xs := eraseAdjDup_subset _ z hz
        have hle : edgeLE x z := hxle z hzmem
        refine edgeLT_of_le_of_ne hle ?_
        intro hxz
        subst hxz
        rcases List.mem_cons.mp hzmem with h1 | h1
        · exact hxy h1
        · have h2 : edgeLE y x := List.rel_of_pairwise_cons htail h1
          exact hxy (antisymm (hxle y (List.mem_cons_self y xs)) h2)

lemma sortUnique_pairwise_lt (l : List Edge) : (sortUnique l).Pairwise edgeLT :=
  eraseAdjDup_pairwise_lt _ (List.sorted_insertionSort edgeLE l)

lemma mem_sortUnique (l : List Edge) (e : Edge) : e ∈ sortUnique l ↔ e ∈ l := by
  unfold sortUnique
  constructor
  · intro h
    exact (List.perm_insertionSort edgeLE l).mem_iff.mp (eraseAdjDup_subset _ e h)
  · intro h
    exact mem_eraseAdjDup _ e ((List.perm_insertionSort edgeLE l).mem_iff.mpr h)

lemma setList_pairwise_lt (l : List Edge) : (setList l).Pairwise edgeLT := by
  unfold setList
  have hsorted : (List.insertionSort edgeLE l.dedup).Pairwise edgeLE :=
    List.sorted_insertionSort edgeLE l.dedup
  have hnodup : (List.insertionSort edgeLE l.dedup).Nodup :=
    (List.perm_insertionSort edgeLE l.dedup).nodup_iff.mpr l.nodup_dedup
  exact (hsorted.and hnodup).imp fun h => edgeLT_of_le_of_ne h.1 h.2

lemma mem_setList (l : List Edge) (e : Edge) : e ∈ setList l ↔ e ∈ l := by
  unfold setList
  rw [(List.perm_insertionSort edgeLE l.dedup).mem_iff, List.mem_dedup]

lemma pairwise_lt_nodup (l : List Edge) (h : l.Pairwise edgeLT) : l.Nodup :=
  h.imp edgeLT_ne

lemma sorted_lt_ext (l₁ l₂ : List Edge) (h₁ : l₁.Pairwise edgeLT) (h₂ : l₂.Pairwise edgeLT)
    (h : ∀ e, e ∈ l₁ ↔ e ∈ l₂) : l₁ = l₂ := by
  have hperm : List.Perm l₁ l₂ :=
    (List.perm_ext_iff_of_nodup (pairwise_lt_nodup _ h₁) (pairwise_lt_nodup _ h₂)).mpr h
  exact List.eq_of_perm_of_sorted hperm (h₁.imp edgeLE_of_edgeLT) (h₂.imp edgeLE_of_edgeLT)

/-! CSR streaming-loop analysis.  `closeIdxs` is the offset array as it
would be if the loop stopped now and the final write
`m_Idxs[CurNode + 1] = m_Adjs.size()` executed. -/

/-- Offset array of a loop state after the final post-loop write. -/
def closeIdxs (st : CSRState α W) : List Nat :=
  st.idxs.set (st.curNode + 1) st.adjs.length

lemma natAdjacents_eq (g : Graph α W) (i : Nat) :
    natAdjacents g i = g.idxs.getD (i + 1) 0 - g.idxs.getD i 0 := by
  unfold natAdjacents numAdjacents
  omega

lemma edgeLT_first_le {a b : Edge} (h : edgeLT a b) : a.1 ≤ b.1 := by
  unfold edgeLT at h; omega

/-- The property claim C3 asserts of every adjacency entry: the weight
stored with the `j`-th neighbor of `u` is the distance between the
stored coordinates of `u` and of that neighbor. -/
def SliceWeightOK [Inhabited α] [Inhabited W] (V : List α) (d : α → α → W)
    (g : Graph α W) : Prop :=
  ∀ u j, j < natAdjacents g u →
    (getAdjacent g u j).2 = d (V.getD u default) (V.getD (getAdjacent g u j).1 default)

/-- Invariant of the CSR streaming loop, tied to the source arrays. -/
structure CSRInv [Inhabited α] [Inhabited W] (V : List α) (d : α → α → W)
    (st : CSRState α W) : Prop where
  hlen : st.idxs.length = V.length + 1
  hcur : st.curNode < V.length
  hvert : st.curVert = V.getD st.curNode default
  hzero : ∀ i, st.curNode < i → st.idxs.getD i 0 = 0
  hbound : ∀ i, i ≤ st.curNode → st.idxs.getD i 0 ≤ st.adjs.length
  hgood : SliceWeightOK V d (Graph.mk V (closeIdxs st) st.adjs)

@[simp] lemma graphMk_verts (V : List α) (J : List Nat) (A : List (Nat × W)) :
    (Graph.mk V J A).verts = V := rfl

@[simp] lemma graphMk_idxs (V : List α) (J : List Nat) (A : List (Nat × W)) :
    (Graph.mk V J A).idxs = J := rfl

@[simp] lemma graphMk_adjs (V : List α) (J : List Nat) (A : List (Nat × W)) :
    (Graph.mk V J A).adjs = A := rfl

@[simp] lemma csrMk_curNode (a : Nat) (b : α) (c : List Nat) (e : List (Nat × W)) :
    (CSRState.mk a b c e).curNode = a := rfl

@[simp] lemma csrMk_curVert (a : Nat) (b : α) (c : List Nat) (e : List (Nat × W)) :
    (CSRState.mk a b c e).curVert = b := rfl

@[simp] lemma csrMk_idxs (a : Nat) (b : α) (c : List Nat) (e : List (Nat × W)) :
    (CSRState.mk a b c e).idxs = c := rfl

@[simp] lemma csrMk_adjs (a : Nat) (b : α) (c : List Nat) (e : List (Nat × W)) :
    (CSRState.mk a b c e).adjs = e := rfl

lemma sliceWeightOK_extend [Inhabited α] [Inhabited W] (V : List α) (d : α → α → W)
    (J J' : List Nat) (A : List (Nat × W)) (c' : Nat) (x : Nat × W)
    (hgood : SliceWeightOK V d (Graph.mk V J A))
    (hbound : ∀ i, i ≤ c' → J.getD i 0 ≤ A.length)
    (hzero : ∀ i, c' + 1 < i → J.getD i 0 = 0)
    (hfit : J.getD c' 0 = A.length ∨ J.getD (c' + 1) 0 = A.length)
    (hxw : x.2 = d (V.getD c' default) (V.getD x.1 default))
    (hJ' : ∀ i, J'.getD i 0 = if i = c' + 1 then A.length + 1 else J.getD i 0) :
    SliceWeightOK V d (Graph.mk V J' (A ++ [x])) := by
  unfold SliceWeightOK at hgood ⊢
  simp only [natAdjacents_eq, getAdjacent, graphMk_verts, graphMk_idxs, graphMk_adjs]
    at hgood ⊢
  intro u j hj
  rcases Nat.lt_trichotomy u c' with hu | hu | hu
  · -- slices strictly below c' are unchanged
    have hvu : J'.getD u 0 = J.getD u 0 := by
      rw [hJ' u, if_neg (by omega)]
    have hvu1 : J'.getD (u + 1) 0 = J.getD (u + 1) 0 := by
      rw [hJ' (u + 1), if_neg (by omega)]
    rw [hvu, hvu1] at hj
    rw [hvu]
    have hlt : J.getD u 0 + j < A.length := by
      have h1 := hbound (u + 1) (by omega)
      omega
    rw [getD_append_left _ _ _ _ hlt]
    exact hgood u j hj
  · -- the slice of c' gains the appended entry
    subst hu
    have hvu : J'.getD u 0 = J.getD u 0 := by
      rw [hJ' u, if_neg (by omega)]
    have hvu1 : J'.getD (u + 1) 0 = A.length + 1 := by
      rw [hJ' (u + 1), if_pos rfl]
    rw [hvu, hvu1] at hj
    rw [hvu]
    rcases Nat.lt_or_ge (J.getD u 0 + j) A.length with hp | hp
    · -- positions below |A| were already present
      rcases hfit with hfit | hfit
      · omega
      · rw [getD_append_left _ _ _ _ hp]
        exact hgood u j (by omega)
    · -- position |A| is the appended entry itself
      have hpe : J.getD u 0 + j = A.length := by omega
      have hgetx : (A ++ [x]).getD (J.getD u 0 + j) default = x := by
        rw [hpe, show A.length = A.length + 0 from rfl, getD_append_right]
        rfl
      rw [hgetx]
      exact hxw
  · -- slices above c' are empty
    rcases Nat.eq_or_lt_of_le hu with hu' | hu'
    · have hvu : J'.getD u 0 = A.length + 1 := by
        rw [hJ' u, if_pos hu'.symm]
      have hvu1 : J'.getD (u + 1) 0 = J.getD (u + 1) 0 := by
        rw [hJ' (u + 1), if_neg (by omega)]
      rw [hvu, hvu1, hzero (u + 1) (by omega)] at hj
      omega
    · have hvu : J'.getD u 0 = J.getD u 0 := by
        rw [hJ' u, if_neg (by omega)]
      have hvu1 : J'.getD (u + 1) 0 = J.getD (u + 1) 0 := by
        rw [hJ' (u + 1), if_neg (by omega)]
      rw [hvu, hvu1, hzero u (by omega), hzero (u + 1) (by omega)] at hj
      omega

lemma csrStep_inv [Inhabited α] [Inhabited W] (V : List α) (d : α → α → W)
    (st : CSRState α W) (e : Edge) (hinv : CSRInv V d st)
    (he : e.1 < V.length) (hce : st.curNode ≤ e.1) :
    CSRInv V d (csrStep V d st e) ∧ (csrStep V d st e).curNode ≤ e.1 := by
  obtain ⟨hlen, hcur, hvert, hzero, hbound, hgood⟩ := hinv
  have hc1len : st.curNode + 1 < st.idxs.length := by omega
  by_cases htr : e.1 ≠ st.curNode
  · -- trigger branch: advance CurNode, record offset, reload CurVert
    have hce' : st.curNode < e.1 := Nat.lt_of_le_of_ne hce (fun h => htr h.symm)
    have hc1n : st.curNode + 1 < V.length := by omega
    have hstep : csrStep V d st e =
        CSRState.mk (st.curNode + 1) (V.getD (st.curNode + 1) default)
          (st.idxs.set (st.curNode + 1) st.adjs.length)
          (st.adjs ++ [(e.2, d (V.getD (st.curNode + 1) default) (V.getD e.2 default))]) := by
      unfold csrStep
      rw [if_pos htr]
    rw [hstep]
    refine ⟨⟨?_, ?_, ?_, ?_, ?_, ?_⟩, ?_⟩
    · simp [hlen]
    · simpa using hc1n
    · simp
    · intro i hi
      simp only [csrMk_curNode, csrMk_idxs] at hi ⊢
      rw [getD_set_ne _ _ _ _ _ (by omega)]
      exact hzero i (by omega)
    · intro i hi
      simp only [csrMk_curNode, csrMk_idxs, csrMk_adjs] at hi ⊢
      rw [List.length_append, List.length_cons, List.length_nil]
      rcases Nat.lt_or_ge i (st.curNode + 1) with h | h
      · rw [getD_set_ne _ _ _ _ _ (by omega)]
        have := hbound i (by omega)
        omega
      · have hieq : i = st.curNode + 1 := by omega
        subst hieq
        rw [getD_set_eq _ _ _ _ hc1len]
        omega
    · -- the closed state: apply the slice-extension lemma at c' = CurNode + 1
      simp only [closeIdxs, csrMk_curNode, csrMk_idxs, csrMk_adjs]
      refine sliceWeightOK_extend V d (st.idxs.set (st.curNode + 1) st.adjs.length) _
        st.adjs (st.curNode + 1) _ ?_ ?_ ?_ ?_ rfl ?_
      · exact hgood
      · intro i hi
        rcases Nat.lt_or_ge i (st.curNode + 1) with h | h
        · rw [getD_set_ne _ _ _ _ _ (by omega)]
          exact hbound i (by omega)
        · have hieq : i = st.curNode + 1 := by omega
          subst hieq
          rw [getD_set_eq _ _ _ _ hc1len]
      · intro i hi
        rw [getD_set_ne _ _ _ _ _ (by omega)]
        exact hzero i (by omega)
      · left
        rw [getD_set_eq _ _ _ _ hc1len]
      · intro i
        by_cases hi : i = st.curNode + 1 + 1
        · subst hi
          rw [if_pos rfl,
            getD_set_eq _ _ _ _ (by simpa using (by omega : st.curNode + 1 + 1 < st.idxs.length))]
          simp
        · rw [if_neg hi, getD_set_ne _ _ _ _ _ (fun h => hi h.symm)]
    · simp only [csrMk_curNode]
      omega
  · -- no trigger: CurNode stays, entry appended to the current slice
    push_neg at htr
    have hstep : csrStep V d st e =
        CSRState.mk st.curNode st.curVert st.idxs
          (st.adjs ++ [(e.2, d st.curVert (V.getD e.2 default))]) := by
      unfold csrStep
      rw [if_neg (by simpa using htr)]
    rw [hstep]
    refine ⟨⟨?_, ?_, ?_, ?_, ?_, ?_⟩, ?_⟩
    · simpa using hlen
    · simpa using hcur
    · simpa using hvert
    · intro i hi
      simp only [csrMk_curNode, csrMk_idxs] at hi ⊢
      exact hzero i hi
    · intro i hi
      simp only [csrMk_curNode, csrMk_idxs, csrMk_adjs] at hi ⊢
      rw [List.length_append, List.length_cons, List.length_nil]
      have := hbound i hi
      omega
    · -- the closed state: apply the slice-extension lemma at c' = CurNode
      simp only [closeIdxs, csrMk_curNode, csrMk_idxs, csrMk_adjs]
      refine sliceWeightOK_extend V d (st.idxs.set (st.curNode + 1) st.adjs.length) _
        st.adjs st.curNode _ ?_ ?_ ?_ ?_ ?_ ?_
      · exact hgood
      · intro i hi
        rw [getD_set_ne _ _ _ _ _ (by omega)]
        exact hbound i hi
      · intro i hi
        rcases Nat.lt_or_ge i st.idxs.length with h | h
        · by_cases h1 : i = st.curNode + 1
          · subst h1
            rw [getD_set_eq _ _ _ _ hc1len]
            omega
          · rw [getD_set_ne _ _ _ _ _ (fun h2 => h1 h2.symm)]
            exact hzero i (by omega)
        · exact getD_oob _ _ _ (by simpa using h)
      · right
        rw [getD_set_eq _ _ _ _ hc1len]
      · simp only [hvert]
      · intro i
        by_cases hi : i = st.curNode + 1
        · subst hi
          rw [if_pos rfl, getD_set_eq _ _ _ _ (by simpa using hc1len)]
          simp
        · rw [if_neg hi, getD_set_ne _ _ _ _ _ (fun h => hi h.symm),
            getD_set_ne _ _ _ _ _ (fun h => hi h.symm)]
    · simp only [csrMk_curNode]
      omega


lemma csr_fold_inv [Inhabited α] [Inhabited W] (V : List α) (d : α → α → W) :
    ∀ (es : List Edge) (st : CSRState α W), CSRInv V d st →
      (∀ e ∈ es, e.1 < V.length ∧ st.curNode ≤ e.1) →
      es.Pairwise (fun a b => a.1 ≤ b.1) →
      CSRInv V d (es.foldl (csrStep V d) st) := by
  intro es
  induction es with
  | nil =>
    intro st h _ _
    simpa using h
  | cons e es ih =>
    intro st hinv hflow hsort
    have he := hflow e (List.mem_cons_self e es)
    have hstep := csrStep_inv V d st e hinv he.1 he.2
    have h2 := hstep.2
    rw [List.foldl_cons]
    apply ih _ hstep.1
    · intro f hf
      have h3 : e.1 ≤ f.1 := (List.pairwise_cons.mp hsort).1 f hf
      exact ⟨(hflow f (List.mem_cons.mpr (Or.inr hf))).1, by omega⟩
    · exact (List.pairwise_cons.mp hsort).2

lemma set_one_replicate_getD (k i : Nat) :
    ((List.replicate k (0 : Nat)).set 1 0).getD i 0 = 0 := by
  by_cases h1 : i = 1
  · subst h1
    by_cases h2 : 1 < (List.replicate k (0 : Nat)).length
    · rw [getD_set_eq _ _ _ _ h2]
    · rw [getD_oob]
      simp only [List.length_set]
      omega
  · rw [getD_set_ne _ _ _ _ _ (fun h => h1 h.symm)]
    exact getD_replicate_zero k i

lemma buildCSR_init_inv [Inhabited α] [Inhabited W] (V : List α) (d : α → α → W)
    (hn : 0 < V.length) :
    CSRInv V d (CSRState.mk 0 (V.getD 0 default)
      (List.replicate (V.length + 1) 0) ([] : List (Nat × W))) := by
  refine ⟨?_, ?_, ?_, ?_, ?_, ?_⟩
  · simp
  · simpa using hn
  · rfl
  · intro i _
    exact getD_replicate_zero _ _
  · intro i hi
    simp only [csrMk_idxs, csrMk_adjs, List.length_nil]
    rw [getD_replicate_zero]
  · intro u j hj
    exfalso
    rw [natAdjacents_eq] at hj
    simp only [graphMk_idxs, closeIdxs, csrMk_curNode, csrMk_idxs, csrMk_adjs,
      List.length_nil] at hj
    rw [set_one_replicate_getD, set_one_replicate_getD] at hj
    omega

/-- The general slice-weight theorem for the shared streaming loop: for
any sorted edge stream with in-range first endpoints, every adjacency
entry that lands in the list of vertex `u` carries the distance between
the stored coordinates of `u` and of the entry's neighbor. -/
theorem buildCSR_sliceWeights [Inhabited α] [Inhabited W] (V : List α) (d : α → α → W)
    (es : List Edge) (hlt : ∀ e ∈ es, e.1 < V.length)
    (hsort : es.Pairwise (fun a b => a.1 ≤ b.1)) :
    SliceWeightOK V d (buildCSR V d es) := by
  cases es with
  | nil =>
    intro u j hj
    exfalso
    rw [natAdjacents_eq] at hj
    unfold buildCSR at hj
    simp only [List.foldl_nil, graphMk_idxs, csrMk_curNode, csrMk_idxs, csrMk_adjs,
      List.length_nil] at hj
    rw [set_one_replicate_getD, set_one_replicate_getD] at hj
    omega
  | cons e es' =>
    have hn : 0 < V.length :=
      Nat.lt_of_le_of_lt (Nat.zero_le _) (hlt e (List.mem_cons_self e es'))
    have hinv := buildCSR_init_inv V d hn
    have hfold := csr_fold_inv V d (e :: es') _ hinv
      (fun f hf => ⟨(hlt f hf), Nat.zero_le _⟩) hsort
    exact hfold.hgood

lemma rawTriEdges_bounds (F : List Tri) (n : Nat)
    (hF : ∀ t ∈ F, t.a < n ∧ t.b < n ∧ t.c < n) :
    ∀ e ∈ rawTriEdges F, e.1 < n ∧ e.2 < n := by
  intro e he
  unfold rawTriEdges at he
  rw [List.mem_flatten] at he
  obtain ⟨l, hl, hel⟩ := he
  rw [List.mem_map] at hl
  obtain ⟨t, htF, rfl⟩ := hl
  have hb := hF t htF
  simp only [triEdges, List.mem_cons, List.mem_singleton] at hel
  rcases hel with rfl | rfl | rfl | rfl | rfl | h
  · constructor <;> simp <;> omega
  · constructor <;> simp <;> omega
  · constructor <;> simp <;> omega
  · constructor <;> simp <;> omega
  · constructor <;> simp <;> omega
  · rcases h with rfl | h
    · constructor <;> simp <;> omega
    · simp at h

lemma symEdges_bounds (E : List Edge) (n : Nat)
    (hE : ∀ e ∈ E, e.1 < n ∧ e.2 < n) :
    ∀ e ∈ symEdges E, e.1 < n ∧ e.2 < n := by
  intro e he
  unfold symEdges at he
  rw [List.mem_flatten] at he
  obtain ⟨l, hl, hel⟩ := he
  rw [List.mem_map] at hl
  obtain ⟨f, hfE, rfl⟩ := hl
  have hb := hE f hfE
  simp only [List.mem_cons, List.mem_singleton] at hel
  rcases hel with rfl | rfl | h
  · constructor <;> simp <;> omega
  · constructor <;> simp <;> omega
  · simp at h

/-- Claim C3: for every graph built by any of the three constructors
(from in-range input, the spec's caller precondition), every adjacency
entry `(v, w)` stored in the list of vertex `u` has weight
`w = d(P[u], P[v])`, the distance between the stored coordinates of the
two endpoints.  This holds even when some vertices are isolated: the
loop always appends entries with `CurVert = m_Verts[CurNode]` and the
offsets delimiting the list of `CurNode` are written at the same
moments. -/
theorem claim_C3_edge_weights [Inhabited α] [Inhabited W] (V : List α) (d : α → α → W) :
    (∀ F : List Tri, (∀ t ∈ F, t.a < V.length ∧ t.b < V.length ∧ t.c < V.length) →
      SliceWeightOK V d (Graph.ofTris V d F)) ∧
    (∀ E : List Edge, (∀ e ∈ E, e.1 < V.length ∧ e.2 < V.length) →
      SliceWeightOK V d (Graph.ofEdgeList V d E)) ∧
    (∀ E : List Edge, (∀ e ∈ E, e.1 < V.length ∧ e.2 < V.length) →
      SliceWeightOK V d (Graph.ofEdgeSet V d E)) := by
  refine ⟨?_, ?_, ?_⟩
  · intro F hF
    apply buildCSR_sliceWeights
    · intro e he
      exact (rawTriEdges_bounds F V.length hF e ((mem_sortUnique _ e).mp he)).1
    · exact (sortUnique_pairwise_lt _).imp edgeLT_first_le
  · intro E hE
    apply buildCSR_sliceWeights
    · intro e he
      exact (symEdges_bounds E V.length hE e ((mem_setList _ e).mp he)).1
    · exact (setList_pairwise_lt _).imp edgeLT_first_le
  · intro E hE
    apply buildCSR_sliceWeights
    · intro e he
      exact (symEdges_bounds E V.length hE e ((mem_setList _ e).mp he)).1
    · exact (setList_pairwise_lt _).imp edgeLT_first_le

/-- Witness for claim C3 at a concrete mesh. -/
theorem claim_C3_witness :
    (∀ t ∈ exF, t.a < exV3.length ∧ t.b < exV3.length ∧ t.c < exV3.length) ∧
    SliceWeightOK exV3 exDist (Graph.ofTris exV3 exDist exF) :=
  ⟨by decide, (claim_C3_edge_weights exV3 exDist).1 exF (by decide)⟩

/-! Closed form of the CSR construction when every vertex occurs as a
first endpoint: offsets are prefix counts and the adjacency array is
the edge stream itself. -/

/-- Number of stream edges whose first endpoint is below `i`. -/
def countLt (es : List Edge) (i : Nat) : Nat :=
  (es.filter (fun e => decide (e.1 < i))).length

/-- The offset array the covered construction produces. -/
def csrSpecIdxs (n : Nat) (es : List Edge) : List Nat :=
  (List.range (n + 1)).map (countLt es)

/-- The adjacency array the covered construction produces. -/
def csrSpecAdjs [Inhabited α] (V : List α) (d : α → α → W) (es : List Edge) :
    List (Nat × W) :=
  es.map (fun e => (e.2, d (V.getD e.1 default) (V.getD e.2 default)))

lemma countLt_append (A B : List Edge) (i : Nat) :
    countLt (A ++ B) i = countLt A i + countLt B i := by
  unfold countLt
  rw [List.filter_append, List.length_append]

lemma countLt_single (h : Edge) (i : Nat) :
    countLt [h] i = if h.1 < i then 1 else 0 := by
  unfold countLt
  by_cases hc : h.1 < i
  · rw [if_pos hc]
    simp [List.filter, hc]
  · rw [if_neg hc]
    simp [List.filter, hc]

lemma countLt_all (l : List Edge) (i : Nat) (h : ∀ e ∈ l, e.1 < i) :
    countLt l i = l.length := by
  unfold countLt
  rw [List.filter_eq_self.mpr (fun e he => by simpa using h e he)]

lemma countLt_zero (l : List Edge) : countLt l 0 = 0 := by
  unfold countLt
  simp

lemma range_map_getD (f : Nat → Nat) (k i : Nat) (h : i < k) :
    ((List.range k).map f).getD i 0 = f i := by
  have hlen : i < ((List.range k).map f).length := by simpa using h
  rw [List.getD_eq_getElem _ _ hlen]
  simp

lemma list_ext_getD (l₁ l₂ : List Nat) (hlen : l₁.length = l₂.length)
    (h : ∀ i, i < l₁.length → l₁.getD i 0 = l₂.getD i 0) : l₁ = l₂ := by
  apply List.ext_getElem hlen
  intro i h1 h2
  have := h i h1
  rwa [List.getD_eq_getElem _ _ h1, List.getD_eq_getElem _ _ h2] at this

/-- Invariant of the streaming loop when the processed prefix has
gap-free first endpoints. -/
structure CSRCov [Inhabited α] [Inhabited W] (V : List α) (d : α → α → W)
    (done : List Edge) (st : CSRState α W) : Prop where
  hlen : st.idxs.length = V.length + 1
  hcur : st.curNode < V.length
  hvert : st.curVert = V.getD st.curNode default
  hmax : ∀ e ∈ done, e.1 ≤ st.curNode
  hatt : (∃ e ∈ done, e.1 = st.curNode) ∨ (st.curNode = 0 ∧ done = [])
  hadjs : st.adjs = csrSpecAdjs V d done
  hidx_le : ∀ i, i ≤ st.curNode → st.idxs.getD i 0 = countLt done i
  hidx_gt : ∀ i, st.curNode < i → st.idxs.getD i 0 = 0

lemma csr_fold_covered [Inhabited α] [Inhabited W] (V : List α) (d : α → α → W)
    (es : List Edge)
    (hsort : es.Pairwise (fun a b => a.1 ≤ b.1))
    (hlt : ∀ e ∈ es, e.1 < V.length)
    (hcov : ∀ i, i < V.length → ∃ e ∈ es, e.1 = i) :
    ∀ (rest done : List Edge) (st : CSRState α W),
      es = done ++ rest → CSRCov V d done st →
      CSRCov V d es (rest.foldl (csrStep V d) st) := by
  intro rest
  induction rest with
  | nil =>
    intro done st hsplit hinv
    rw [List.foldl_nil]
    rw [hsplit, List.append_nil]
    exact hinv
  | cons h rest' ih =>
    intro done st hsplit hinv
    obtain ⟨hlen, hcur, hvert, hmax, hatt, hadjs, hidx_le, hidx_gt⟩ := hinv
    have hsplit' : es = (done ++ [h]) ++ rest' := by
      rw [hsplit, List.append_assoc]
      simp
    have hpw := List.pairwise_append.mp (hsplit ▸ hsort)
    have hcross : ∀ e ∈ done, e.1 ≤ h.1 :=
      fun e he => hpw.2.2 e he h (List.mem_cons_self h rest')
    have hhr : ∀ e ∈ rest', h.1 ≤ e.1 :=
      fun e he => (List.pairwise_cons.mp hpw.2.1).1 e he
    have hhn : h.1 < V.length := hlt h (by rw [hsplit]; simp)
    have hc1len : st.curNode + 1 < st.idxs.length := by omega
    -- the next first endpoint is the current vertex or its successor
    have hstep01 : h.1 = st.curNode ∨ h.1 = st.curNode + 1 := by
      by_contra hcon
      push_neg at hcon
      rcases hatt with ⟨e0, he0, he0c⟩ | ⟨hc0, hd0⟩
      · have hch : st.curNode ≤ h.1 := he0c ▸ hcross e0 he0
        have hge : st.curNode + 1 < h.1 := by omega
        obtain ⟨f, hf, hf1⟩ := hcov (st.curNode + 1) (by omega)
        rw [hsplit] at hf
        rcases List.mem_append.mp hf with hfd | hfr
        · have := hmax f hfd
          omega
        · rcases List.mem_cons.mp hfr with rfl | hfr'
          · omega
          · have := hhr f hfr'
            omega
      · subst hd0
        have hh0 : h.1 ≠ 0 := by omega
        obtain ⟨f, hf, hf1⟩ := hcov 0 (by omega)
        rw [hsplit] at hf
        simp only [List.nil_append] at hf
        rcases List.mem_cons.mp hf with rfl | hfr'
        · omega
        · have := hhr f hfr'
          omega
    rw [List.foldl_cons]
    apply ih (done ++ [h]) _ hsplit'
    rcases hstep01 with hh | hh
    · -- no trigger
      have hne : ¬ (h.1 ≠ st.curNode) := by omega
      have hstep : csrStep V d st h =
          CSRState.mk st.curNode st.curVert st.idxs
            (st.adjs ++ [(h.2, d st.curVert (V.getD h.2 default))]) := by
        unfold csrStep
        rw [if_neg (by simpa using hne)]
      rw [hstep]
      refine ⟨by simpa using hlen, by simpa using hcur, by simpa using hvert, ?_, ?_, ?_, ?_, ?_⟩
      · intro e he
        simp only [csrMk_curNode]
        rcases List.mem_append.mp he with hd | hs
        · exact hmax e hd
        · rw [List.mem_singleton] at hs
          subst hs
          omega
      · left
        exact ⟨h, by simp, by simpa using hh⟩
      · simp only [csrMk_adjs]
        unfold csrSpecAdjs
        rw [List.map_append, hadjs]
        unfold csrSpecAdjs
        simp [hvert, hh]
      · intro i hi
        simp only [csrMk_curNode, csrMk_idxs] at hi ⊢
        rw [countLt_append, countLt_single, if_neg (by omega), hidx_le i hi]
        omega
      · intro i hi
        simp only [csrMk_curNode, csrMk_idxs] at hi ⊢
        exact hidx_gt i hi
    · -- trigger: advance to the next vertex
      have hne : h.1 ≠ st.curNode := by omega
      have hstep : csrStep V d st h =
          CSRState.mk (st.curNode + 1) (V.getD (st.curNode + 1) default)
            (st.idxs.set (st.curNode + 1) st.adjs.length)
            (st.adjs ++
              [(h.2, d (V.getD (st.curNode + 1) default) (V.getD h.2 default))]) := by
        unfold csrStep
        rw [if_pos hne]
      rw [hstep]
      refine ⟨by simp [hlen], by simpa using (by omega : st.curNode + 1 < V.length),
        by simp, ?_, ?_, ?_, ?_, ?_⟩
      · intro e he
        simp only [csrMk_curNode]
        rcases List.mem_append.mp he with hd | hs
        · have := hmax e hd
          omega
        · rw [List.mem_singleton] at hs
          subst hs
          omega
      · left
        exact ⟨h, by simp, by simpa using hh⟩
      · simp only [csrMk_adjs]
        unfold csrSpecAdjs
        rw [List.map_append, hadjs]
        unfold csrSpecAdjs
        simp [hh]
      · intro i hi
        simp only [csrMk_curNode, csrMk_idxs] at hi ⊢
        rcases Nat.lt_or_ge i (st.curNode + 1) with hlt' | hge'
        · rw [getD_set_ne _ _ _ _ _ (by omega), countLt_append, countLt_single,
            if_neg (by omega), hidx_le i (by omega)]
          omega
        · have hieq : i = st.curNode + 1 := by omega
          subst hieq
          rw [getD_set_eq _ _ _ _ hc1len, countLt_append, countLt_single,
            if_neg (by omega), countLt_all done _ (fun e he => by
              have := hmax e he
              omega),
            hadjs]
          unfold csrSpecAdjs
          simp
      · intro i hi
        simp only [csrMk_curNode, csrMk_idxs] at hi ⊢
        rw [getD_set_ne _ _ _ _ _ (by omega)]
        exact hidx_gt i (by omega)

/-- Closed form of the construction under full coverage: the offsets
are prefix counts of the sorted edge stream and the adjacency array is
the stream with weights between the endpoints' coordinates. -/
theorem buildCSR_covered [Inhabited α] [Inhabited W] (V : List α) (d : α → α → W)
    (es : List Edge)
    (hsort : es.Pairwise (fun a b => a.1 ≤ b.1))
    (hlt : ∀ e ∈ es, e.1 < V.length)
    (hcov : ∀ i, i < V.length → ∃ e ∈ es, e.1 = i)
    (hn : 0 < V.length) :
    buildCSR V d es = Graph.mk V (csrSpecIdxs V.length es) (csrSpecAdjs V d es) := by
  have hinit : CSRCov V d [] (CSRState.mk 0 (V.getD 0 default)
      (List.replicate (V.length + 1) 0) ([] : List (Nat × W))) := by
    refine ⟨by simp, by simpa using hn, rfl, by simp, Or.inr ⟨rfl, rfl⟩, by
      unfold csrSpecAdjs
      simp, ?_, ?_⟩
    · intro i _
      simp only [csrMk_idxs]
      rw [getD_replicate_zero]
      unfold countLt
      simp
    · intro i _
      simp only [csrMk_idxs]
      exact getD_replicate_zero _ _
  have hfold := csr_fold_covered V d es hsort hlt hcov es [] _ (by simp) hinit
  set stf := es.foldl (csrStep V d) (CSRState.mk 0 (V.getD 0 default)
    (List.replicate (V.length + 1) 0) ([] : List (Nat × W))) with hstf
  obtain ⟨hlen, hcur, hvert, hmax, hatt, hadjs, hidx_le, hidx_gt⟩ := hfold
  have hbuild : buildCSR V d es =
      Graph.mk V (stf.idxs.set (stf.curNode + 1) stf.adjs.length) stf.adjs := rfl
  have hcvm : V.length - 1 ≤ stf.curNode := by
    obtain ⟨f, hf, hf1⟩ := hcov (V.length - 1) (by omega)
    have := hmax f hf
    omega
  have hcfin : stf.curNode = V.length - 1 := by omega
  have hadjlen : stf.adjs.length = es.length := by
    rw [hadjs]
    unfold csrSpecAdjs
    simp
  have hidxs : stf.idxs.set (stf.curNode + 1) stf.adjs.length = csrSpecIdxs V.length es := by
    apply list_ext_getD
    · unfold csrSpecIdxs
      simp [hlen]
    · intro i hi
      have hi' : i < V.length + 1 := by
        simpa [hlen] using hi
      unfold csrSpecIdxs
      rw [range_map_getD _ _ _ hi']
      by_cases hieq : i = stf.curNode + 1
      · subst hieq
        rw [getD_set_eq _ _ _ _ (by omega), hadjlen]
        have hin : stf.curNode + 1 = V.length := by omega
        rw [hin, countLt_all es _ (fun e he => hlt e he)]
      · rw [getD_set_ne _ _ _ _ _ (fun h2 => hieq h2.symm)]
        exact hidx_le i (by omega)
  rw [hbuild, hidxs, hadjs]

lemma pair_minmax_cases (a b u v : Nat)
    (h : (u, v) = (min a b, max a b) ∨ (u, v) = (max a b, min a b)) :
    (u = a ∧ v = b) ∨ (u = b ∧ v = a) := by
  rcases Nat.le_total a b with hab | hab
  · rw [min_eq_left hab, max_eq_right hab] at h
    rcases h with h | h <;> simp only [Prod.mk.injEq] at h <;> tauto
  · rw [min_eq_right hab, max_eq_left hab] at h
    rcases h with h | h <;> simp only [Prod.mk.injEq] at h <;> tauto

lemma pair_minmax_intro (a b u v : Nat)
    (h : (u = a ∧ v = b) ∨ (u = b ∧ v = a)) :
    (u, v) = (min a b, max a b) ∨ (u, v) = (max a b, min a b) := by
  rcases Nat.le_total a b with hab | hab
  · rw [min_eq_left hab, max_eq_right hab]
    rcases h with ⟨h1, h2⟩ | ⟨h1, h2⟩ <;> subst h1 <;> subst h2 <;> tauto
  · rw [min_eq_right hab, max_eq_left hab]
    rcases h with ⟨h1, h2⟩ | ⟨h1, h2⟩ <;> subst h1 <;> subst h2 <;> tauto

lemma mem_triEdges_iff (t : Tri) (u v : Nat) : (u, v) ∈ triEdges t ↔ SideOf t u v := by
  unfold triEdges SideOf
  simp only [List.mem_cons, List.not_mem_nil, or_false]
  constructor
  · intro h
    rcases h with h | h | h | h | h | h
    · rcases pair_minmax_cases t.a t.b u v (Or.inl h) with h' | h' <;> tauto
    · rcases pair_minmax_cases t.b t.c u v (Or.inl h) with h' | h' <;> tauto
    · rcases pair_minmax_cases t.c t.a u v (Or.inl h) with h' | h' <;> tauto
    · rcases pair_minmax_cases t.a t.b u v (Or.inr h) with h' | h' <;> tauto
    · rcases pair_minmax_cases t.b t.c u v (Or.inr h) with h' | h' <;> tauto
    · rcases pair_minmax_cases t.c t.a u v (Or.inr h) with h' | h' <;> tauto
  · intro h
    rcases h with h | h | h | h | h | h
    · rcases pair_minmax_intro t.a t.b u v (Or.inl h) with h' | h' <;> tauto
    · rcases pair_minmax_intro t.b t.c u v (Or.inl h) with h' | h' <;> tauto
    · rcases pair_minmax_intro t.c t.a u v (Or.inl h) with h' | h' <;> tauto
    · rcases pair_minmax_intro t.a t.b u v (Or.inr ⟨h.2, h.1⟩) with h' | h' <;> tauto
    · rcases pair_minmax_intro t.b t.c u v (Or.inr ⟨h.2, h.1⟩) with h' | h' <;> tauto
    · rcases pair_minmax_intro t.c t.a u v (Or.inr ⟨h.2, h.1⟩) with h' | h' <;> tauto

lemma mem_rawTriEdges (F : List Tri) (u v : Nat) :
    (u, v) ∈ rawTriEdges F ↔ MeshEdge F u v := by
  unfold rawTriEdges MeshEdge
  rw [List.mem_flatten]
  constructor
  · intro ⟨l, hl, hel⟩
    rw [List.mem_map] at hl
    obtain ⟨t, htF, rfl⟩ := hl
    exact ⟨t, htF, (mem_triEdges_iff t u v).mp hel⟩
  · intro ⟨t, htF, hs⟩
    exact ⟨triEdges t, List.mem_map.mpr ⟨t, htF, rfl⟩, (mem_triEdges_iff t u v).mpr hs⟩

lemma sideOf_symm (t : Tri) (u v : Nat) : SideOf t u v ↔ SideOf t v u := by
  unfold SideOf
  tauto

lemma meshEdge_symm (F : List Tri) (u v : Nat) : MeshEdge F u v ↔ MeshEdge F v u := by
  unfold MeshEdge
  constructor
  · intro ⟨t, ht, hs⟩
    exact ⟨t, ht, (sideOf_symm t u v).mp hs⟩
  · intro ⟨t, ht, hs⟩
    exact ⟨t, ht, (sideOf_symm t v u).mp hs⟩

lemma meshEdge_irrefl (F : List Tri) (n : Nat) (hF : MeshValid n F) (u : Nat) :
    ¬ MeshEdge F u u := by
  intro ⟨t, ht, hs⟩
  have hv := hF t ht
  unfold TriValid at hv
  unfold SideOf at hs
  omega

lemma meshEdge_lt (F : List Tri) (n : Nat) (hF : MeshValid n F) (u v : Nat)
    (h : MeshEdge F u v) : u < n ∧ v < n := by
  obtain ⟨t, ht, hs⟩ := h
  have hv := hF t ht
  unfold TriValid at hv
  unfold SideOf at hs
  omega

lemma covers_first (F : List Tri) (n : Nat) (hcov : CoversVerts n F) (i : Nat)
    (hi : i < n) : ∃ v, MeshEdge F i v := by
  obtain ⟨t, ht, hit⟩ := hcov i hi
  unfold MeshEdge SideOf
  rcases hit with rfl | rfl | rfl
  · exact ⟨t.b, t, ht, by tauto⟩
  · exact ⟨t.c, t, ht, by tauto⟩
  · exact ⟨t.a, t, ht, by tauto⟩

lemma countLt_none (l : List Edge) (i : Nat) (h : ∀ e ∈ l, ¬ e.1 < i) :
    countLt l i = 0 := by
  unfold countLt
  rw [List.filter_eq_nil_iff.mpr (fun e he => by simpa using h e he)]
  rfl

lemma sorted_first_decomp (l : List Edge)
    (hsort : l.Pairwise (fun a b => a.1 ≤ b.1)) (u : Nat) :
    l = l.filter (fun e => decide (e.1 < u)) ++ l.filter (fun e => decide (e.1 = u)) ++
        l.filter (fun e => decide (u < e.1)) := by
  induction l with
  | nil => simp
  | cons h t ih =>
    have hhd : ∀ e ∈ t, h.1 ≤ e.1 := (List.pairwise_cons.mp hsort).1
    have hih := ih (List.pairwise_cons.mp hsort).2
    rcases Nat.lt_trichotomy h.1 u with hc | hc | hc
    · rw [List.filter_cons_of_pos (by simpa using hc),
        List.filter_cons_of_neg (by simp; omega),
        List.filter_cons_of_neg (by simp; omega)]
      simp only [List.cons_append]
      rw [← hih]
    · rw [List.filter_cons_of_neg (by simp; omega),
        List.filter_cons_of_pos (by simpa using hc),
        List.filter_cons_of_neg (by simp; omega)]
      have hA : t.filter (fun e => decide (e.1 < u)) = [] := by
        apply List.filter_eq_nil_iff.mpr
        intro e he
        have := hhd e he
        simp
        omega
      rw [hA] at hih ⊢
      simp only [List.nil_append] at hih
      simp only [List.nil_append, List.cons_append]
      rw [← hih]
    · rw [List.filter_cons_of_neg (by simp; omega),
        List.filter_cons_of_neg (by simp; omega),
        List.filter_cons_of_pos (by simpa using hc)]
      have hA : t.filter (fun e => decide (e.1 < u)) = [] := by
        apply List.filter_eq_nil_iff.mpr
        intro e he
        have := hhd e he
        simp
        omega
      have hB : t.filter (fun e => decide (e.1 = u)) = [] := by
        apply List.filter_eq_nil_iff.mpr
        intro e he
        have := hhd e he
        simp
        omega
      rw [hA, hB] at hih
      simp only [List.nil_append] at hih
      rw [hA, hB]
      simp only [List.nil_append]
      rw [← hih]

lemma countLt_succ (l : List Edge) (hsort : l.Pairwise (fun a b => a.1 ≤ b.1)) (u : Nat) :
    countLt l (u + 1) = countLt l u + (l.filter (fun e => decide (e.1 = u))).length := by
  conv_lhs => rw [sorted_first_decomp l hsort u]
  rw [countLt_append, countLt_append]
  have hA : countLt (l.filter (fun e => decide (e.1 < u))) (u + 1) =
      (l.filter (fun e => decide (e.1 < u))).length := by
    apply countLt_all
    intro e he
    have := List.of_mem_filter he
    simp at this
    omega
  have hB : countLt (l.filter (fun e => decide (e.1 = u))) (u + 1) =
      (l.filter (fun e => decide (e.1 = u))).length := by
    apply countLt_all
    intro e he
    have := List.of_mem_filter he
    simp at this
    omega
  have hC : countLt (l.filter (fun e => decide (u < e.1))) (u + 1) = 0 := by
    apply countLt_none
    intro e he
    have := List.of_mem_filter he
    simp at this
    omega
  have hA' : countLt l u = (l.filter (fun e => decide (e.1 < u))).length := by
    conv_lhs => rw [sorted_first_decomp l hsort u]
    rw [countLt_append, countLt_append]
    have h1 : countLt (l.filter (fun e => decide (e.1 < u))) u =
        (l.filter (fun e => decide (e.1 < u))).length := by
      apply countLt_all
      intro e he
      have := List.of_mem_filter he
      simpa using this
    have h2 : countLt (l.filter (fun e => decide (e.1 = u))) u = 0 := by
      apply countLt_none
      intro e he
      have := List.of_mem_filter he
      simp at this
      omega
    have h3 : countLt (l.filter (fun e => decide (u < e.1))) u = 0 := by
      apply countLt_none
      intro e he
      have := List.of_mem_filter he
      simp at this
      omega
    omega
  omega

/-- The closed-form graph of the covered construction. -/
def csrSpecGraph [Inhabited α] (V : List α) (d : α → α → W) (es : List Edge) : Graph α W :=
  Graph.mk V (csrSpecIdxs V.length es) (csrSpecAdjs V d es)

lemma specIdxs_getD (n : Nat) (es : List Edge) (i : Nat) :
    (csrSpecIdxs n es).getD i 0 = if i ≤ n then countLt es i else 0 := by
  unfold csrSpecIdxs
  by_cases hi : i ≤ n
  · rw [if_pos hi, range_map_getD _ _ _ (by omega)]
  · rw [if_neg hi, getD_oob]
    simp
    omega

lemma spec_numVertices [Inhabited α] (V : List α) (d : α → α → W) (es : List Edge) :
    numVertices (csrSpecGraph V d es) = V.length := rfl

lemma spec_natAdj [Inhabited α] (V : List α) (d : α → α → W) (es : List Edge) (u : Nat) :
    natAdjacents (csrSpecGraph V d es) u =
      if u < V.length then countLt es (u + 1) - countLt es u else 0 := by
  rw [natAdjacents_eq]
  unfold csrSpecGraph
  simp only [graphMk_idxs]
  rw [specIdxs_getD, specIdxs_getD]
  by_cases h1 : u + 1 ≤ V.length
  · rw [if_pos h1, if_pos (by omega), if_pos (by omega)]
  · by_cases h2 : u ≤ V.length
    · rw [if_neg h1, if_pos h2, if_neg (by omega)]
      omega
    · rw [if_neg h1, if_neg h2, if_neg (by omega)]

lemma spec_getAdjacent [Inhabited α] [Inhabited W] (V : List α) (d : α → α → W)
    (es : List Edge) (hsort : es.Pairwise (fun a b => a.1 ≤ b.1))
    (u : Nat) (hu : u < V.length) (j : Nat)
    (hj : j < (es.filter (fun e => decide (e.1 = u))).length) :
    getAdjacent (csrSpecGraph V d es) u j =
      (((es.filter (fun e => decide (e.1 = u))).getD j (0, 0)).2,
        d (V.getD ((es.filter (fun e => decide (e.1 = u))).getD j (0, 0)).1 default)
          (V.getD ((es.filter (fun e => decide (e.1 = u))).getD j (0, 0)).2 default)) := by
  unfold getAdjacent csrSpecGraph
  simp only [graphMk_idxs, graphMk_adjs]
  rw [specIdxs_getD, if_pos (by omega)]
  set A := es.filter (fun e => decide (e.1 < u)) with hA
  set B := es.filter (fun e => decide (e.1 = u)) with hB
  set C := es.filter (fun e => decide (u < e.1)) with hC
  have hcnt : countLt es u = A.length := rfl
  have hdec : es = A ++ B ++ C := sorted_first_decomp es hsort u
  have hadj : csrSpecAdjs V d es =
      A.map (fun e => (e.2, d (V.getD e.1 default) (V.getD e.2 default))) ++
      B.map (fun e => (e.2, d (V.getD e.1 default) (V.getD e.2 default))) ++
      C.map (fun e => (e.2, d (V.getD e.1 default) (V.getD e.2 default))) := by
    conv_lhs => rw [hdec]
    unfold csrSpecAdjs
    rw [List.map_append, List.map_append]
  rw [hadj, hcnt]
  have hlen1 : j < (B.map (fun e =>
      (e.2, d (V.getD e.1 default) (V.getD e.2 default)))).length := by
    simpa using hj
  have hgoal : ((A.map (fun e => (e.2, d (V.getD e.1 default) (V.getD e.2 default))) ++
      B.map (fun e => (e.2, d (V.getD e.1 default) (V.getD e.2 default)))) ++
      C.map (fun e => (e.2, d (V.getD e.1 default) (V.getD e.2 default)))).getD
        (A.length + j) default =
      (B.map (fun e => (e.2, d (V.getD e.1 default) (V.getD e.2 default)))).getD j default := by
    rw [getD_append_left _ _ _ _ (by
      rw [List.length_append]
      simp only [List.length_map]
      omega)]
    have hAlen : (A.map (fun e =>
        (e.2, d (V.getD e.1 default) (V.getD e.2 default)))).length = A.length := by
      simp
    rw [← hAlen, getD_append_right]
  rw [hgoal]
  rw [List.getD_eq_getElem _ _ hlen1, List.getElem_map, List.getD_eq_getElem _ _ hj]

lemma spec_adjFirsts [Inhabited α] [Inhabited W] (V : List α) (d : α → α → W)
    (es : List Edge) (hsort : es.Pairwise (fun a b => a.1 ≤ b.1))
    (u : Nat) (hu : u < V.length) :
    adjFirsts (csrSpecGraph V d es) u =
      (es.filter (fun e => decide (e.1 = u))).map (fun e => e.2) := by
  unfold adjFirsts
  rw [spec_natAdj, if_pos hu, countLt_succ es hsort u]
  have hlen : countLt es u + (es.filter (fun e => decide (e.1 = u))).length - countLt es u =
      (es.filter (fun e => decide (e.1 = u))).length := by omega
  rw [hlen]
  apply List.ext_getElem
  · simp
  · intro i h1 h2
    simp only [List.getElem_map, List.getElem_range]
    have hi : i < (es.filter (fun e => decide (e.1 = u))).length := by simpa using h1
    rw [spec_getAdjacent V d es hsort u hu i hi]
    simp only
    rw [List.getD_eq_getElem _ _ hi]

lemma buildCSR_covered' [Inhabited α] [Inhabited W] (V : List α) (d : α → α → W)
    (es : List Edge)
    (hsort : es.Pairwise (fun a b => a.1 ≤ b.1))
    (hlt : ∀ e ∈ es, e.1 < V.length)
    (hcov : ∀ i, i < V.length → ∃ e ∈ es, e.1 = i) :
    buildCSR V d es = csrSpecGraph V d es := by
  rcases Nat.eq_zero_or_pos V.length with hn | hn
  · have hV : V = [] := List.length_eq_zero.mp hn
    have hes : es = [] := by
      cases es with
      | nil => rfl
      | cons e t =>
        have := hlt e (List.mem_cons_self e t)
        omega
    subst hV
    subst hes
    rfl
  · exact buildCSR_covered V d es hsort hlt hcov hn

lemma length_filter_lt_gt (l : List Edge) (h : ∀ e ∈ l, e.1 ≠ e.2) :
    l.length = (l.filter (fun e => decide (e.1 < e.2))).length +
      (l.filter (fun e => decide (e.2 < e.1))).length := by
  induction l with
  | nil => simp
  | cons e t ih =>
    have he := h e (List.mem_cons_self e t)
    have iht := ih (fun f hf => h f (List.mem_cons.mpr (Or.inr hf)))
    by_cases h1 : e.1 < e.2
    · rw [List.filter_cons_of_pos (by simpa using h1),
        List.filter_cons_of_neg (by simp; omega)]
      simp only [List.length_cons]
      omega
    · have h2 : e.2 < e.1 := by omega
      rw [List.filter_cons_of_neg (by simp; omega),
        List.filter_cons_of_pos (by simpa using h2)]
      simp only [List.length_cons]
      omega

lemma length_filter_swap (es : List Edge) (hnodup : es.Nodup)
    (hsym : ∀ u v, (u, v) ∈ es ↔ (v, u) ∈ es) :
    (es.filter (fun e => decide (e.2 < e.1))).length =
      (es.filter (fun e => decide (e.1 < e.2))).length := by
  have hQn : (es.filter (fun e => decide (e.2 < e.1))).Nodup := hnodup.filter _
  have hPn : (es.filter (fun e => decide (e.1 < e.2))).Nodup := hnodup.filter _
  have hmapn : ((es.filter (fun e => decide (e.2 < e.1))).map Prod.swap).Nodup :=
    (List.nodup_map_iff_inj_on hQn).mpr (fun x _ y _ hxy => Prod.swap_injective hxy)
  have hmem : ∀ x, x ∈ (es.filter (fun e => decide (e.2 < e.1))).map Prod.swap ↔
      x ∈ es.filter (fun e => decide (e.1 < e.2)) := by
    intro x
    rw [List.mem_map, List.mem_filter]
    constructor
    · intro ⟨q, hq, hqx⟩
      rw [List.mem_filter] at hq
      subst hqx
      refine ⟨?_, by simpa using hq.2⟩
      have : (q.2, q.1) ∈ es := (hsym q.1 q.2).mp (by simpa using hq.1)
      simpa using this
    · intro ⟨hx, hlt'⟩
      refine ⟨Prod.swap x, List.mem_filter.mpr ⟨?_, by simpa using hlt'⟩, Prod.swap_swap x⟩
      have : (x.2, x.1) ∈ es := (hsym x.1 x.2).mp (by simpa using hx)
      simpa using this
  have hcard : ((es.filter (fun e => decide (e.2 < e.1))).map Prod.swap).toFinset =
      (es.filter (fun e => decide (e.1 < e.2))).toFinset := by
    apply Finset.ext
    intro x
    rw [List.mem_toFinset, List.mem_toFinset]
    exact hmem x
  have h1 := List.toFinset_card_of_nodup hmapn
  have h2 := List.toFinset_card_of_nodup hPn
  rw [hcard, h2] at h1
  simpa using h1.symm

lemma count_pair (es : List Edge) (u v : Nat) :
    ((es.filter (fun e => decide (e.1 = u))).map (fun e => e.2)).count v =
      es.count (u, v) := by
  induction es with
  | nil => simp
  | cons e t ih =>
    by_cases h1 : e.1 = u
    · rw [List.filter_cons_of_pos (by simpa using h1)]
      rw [List.map_cons, List.count_cons, List.count_cons, ih]
      by_cases h2 : e.2 = v
      · have he : e = (u, v) := Prod.ext h1 h2
        simp [h2, he]
      · have hne : ¬ (e = (u, v)) := fun hc => h2 (by rw [hc])
        simp [h2, hne]
    · have hne : ¬ (e = (u, v)) := fun hc => h1 (by rw [hc])
      rw [List.filter_cons_of_neg (by simpa using h1)]
      rw [List.count_cons, ih]
      simp [hne]

lemma countLt_le_length (l : List Edge) (i : Nat) : countLt l i ≤ l.length := by
  unfold countLt
  exact List.length_filter_le _ _

lemma count_one_of_nodup_mem (l : List Edge) (a : Edge) (hnd : l.Nodup) (ha : a ∈ l) :
    l.count a = 1 := by
  induction l with
  | nil => simp at ha
  | cons e t ih =>
    rw [List.count_cons]
    rcases List.mem_cons.mp ha with rfl | hat
    · have hnotin : a ∉ t := (List.nodup_cons.mp hnd).1
      have hz : t.count a = 0 := List.count_eq_zero.mpr hnotin
      rw [hz]
      simp
    · have hne : ¬ (e == a) = true := by
        simp only [beq_iff_eq]
        intro hc
        exact (List.nodup_cons.mp hnd).1 (hc ▸ hat)
      rw [ih (List.nodup_cons.mp hnd).2 hat]
      simp at hne
      simp [hne]

lemma ofTris_spec [Inhabited α] [Inhabited W] (V : List α) (d : α → α → W) (F : List Tri)
    (hidx : ∀ t ∈ F, t.a < V.length ∧ t.b < V.length ∧ t.c < V.length)
    (hcov : CoversVerts V.length F) :
    Graph.ofTris V d F = csrSpecGraph V d (sortUnique (rawTriEdges F)) := by
  apply buildCSR_covered'
  · exact (sortUnique_pairwise_lt _).imp edgeLT_first_le
  · intro e he
    exact (rawTriEdges_bounds F V.length hidx e ((mem_sortUnique _ e).mp he)).1
  · intro i hi
    obtain ⟨v, hv⟩ := covers_first F V.length hcov i hi
    exact ⟨(i, v), (mem_sortUnique _ _).mpr ((mem_rawTriEdges F i v).mpr hv), rfl⟩

/-- Number of undirected edges of the input triangulation: each
unordered edge `{u, v}` counted once, via its `(min, max)`
representative in the normalized stream. -/
def numUndirEdges (F : List Tri) : Nat :=
  ((sortUnique (rawTriEdges F)).filter (fun e => decide (e.1 < e.2))).length

/-- Claim C1 (amended): for every graph built by the triangle-list
constructor from a valid mesh in which every vertex occurs in some
triangle (no isolated vertices), the CSR adjacency is well-formed:
`off[0] = 0`, `off` is monotone, `off[n] = |adj| = 2·|E|`, every
undirected input edge `{u, v}` appears exactly once as `v` in `adj[u]`
and once as `u` in `adj[v]`, and no adjacency list has a self-loop or a
duplicate neighbor.  The last conjunct ties `numUndirEdges` to the
input triangulation.  (The unamended claim is refuted by
`claim_C1_counterexample`: an isolated vertex leaves the tail of `off`
unwritten.) -/
theorem claim_C1_csr_wellformed [Inhabited α] [Inhabited W] (V : List α) (d : α → α → W)
    (F : List Tri) (g : Graph α W)
    (hval : MeshValid V.length F) (hcov : CoversVerts V.length F)
    (hg : g = Graph.ofTris V d F) :
    g.idxs.getD 0 0 = 0 ∧
    (∀ i, i < numVertices g → g.idxs.getD i 0 ≤ g.idxs.getD (i + 1) 0) ∧
    g.idxs.getD (numVertices g) 0 = g.adjs.length ∧
    g.adjs.length = 2 * numUndirEdges F ∧
    (∀ u v, MeshEdge F u v →
      (adjFirsts g u).count v = 1 ∧ (adjFirsts g v).count u = 1) ∧
    (∀ u, u ∉ adjFirsts g u) ∧
    (∀ u, (adjFirsts g u).Nodup) ∧
    (∀ e : Edge, e ∈ (sortUnique (rawTriEdges F)).filter (fun e => decide (e.1 < e.2)) ↔
      (MeshEdge F e.1 e.2 ∧ e.1 < e.2)) := by
  have hidx : ∀ t ∈ F, t.a < V.length ∧ t.b < V.length ∧ t.c < V.length := by
    intro t ht
    have := hval t ht
    unfold TriValid at this
    omega
  have hspec := ofTris_spec V d F hidx hcov
  subst hg
  rw [hspec]
  have hsLT := sortUnique_pairwise_lt (rawTriEdges F)
  have hsort := hsLT.imp (fun h => edgeLT_first_le h)
  have hnodup := pairwise_lt_nodup _ hsLT
  have hmemE : ∀ u v : Nat, (u, v) ∈ sortUnique (rawTriEdges F) ↔ MeshEdge F u v := by
    intro u v
    rw [mem_sortUnique, mem_rawTriEdges]
  have hlt : ∀ e ∈ sortUnique (rawTriEdges F), e.1 < V.length := by
    intro e he
    exact (rawTriEdges_bounds F V.length hidx e ((mem_sortUnique _ e).mp he)).1
  have hdiag : ∀ e ∈ sortUnique (rawTriEdges F), e.1 ≠ e.2 := by
    intro e he hc
    have hm : MeshEdge F e.1 e.2 := (hmemE e.1 e.2).mp he
    rw [hc] at hm
    exact meshEdge_irrefl F V.length hval e.2 hm
  have hsym : ∀ u v : Nat, (u, v) ∈ sortUnique (rawTriEdges F) ↔
      (v, u) ∈ sortUnique (rawTriEdges F) := by
    intro u v
    rw [hmemE, hmemE]
    exact meshEdge_symm F u v
  refine ⟨?_, ?_, ?_, ?_, ?_, ?_, ?_, ?_⟩
  · unfold csrSpecGraph
    simp only [graphMk_idxs]
    rw [specIdxs_getD, if_pos (by omega), countLt_zero]
  · intro i hi
    rw [spec_numVertices] at hi
    unfold csrSpecGraph
    simp only [graphMk_idxs]
    rw [specIdxs_getD, specIdxs_getD, if_pos (by omega), if_pos (by omega),
      countLt_succ _ hsort i]
    omega
  · rw [spec_numVertices]
    unfold csrSpecGraph
    simp only [graphMk_idxs, graphMk_adjs]
    rw [specIdxs_getD, if_pos (by omega), countLt_all _ _ hlt]
    unfold csrSpecAdjs
    simp
  · unfold csrSpecGraph
    simp only [graphMk_adjs]
    have h1 : (csrSpecAdjs V d (sortUnique (rawTriEdges F))).length =
        (sortUnique (rawTriEdges F)).length := by
      unfold csrSpecAdjs
      simp
    rw [h1, length_filter_lt_gt _ hdiag,
      length_filter_swap _ hnodup hsym]
    unfold numUndirEdges
    omega
  · intro u v hm
    have hu := (meshEdge_lt F V.length hval u v hm).1
    have hv := (meshEdge_lt F V.length hval u v hm).2
    constructor
    · rw [spec_adjFirsts V d _ hsort u hu, count_pair]
      exact count_one_of_nodup_mem _ _ hnodup ((hmemE u v).mpr hm)
    · rw [spec_adjFirsts V d _ hsort v hv, count_pair]
      exact count_one_of_nodup_mem _ _ hnodup
        ((hmemE v u).mpr ((meshEdge_symm F u v).mp hm))
  · intro u hmem'
    by_cases hu : u < V.length
    · rw [spec_adjFirsts V d _ hsort u hu] at hmem'
      rw [List.mem_map] at hmem'
      obtain ⟨e, he, he2⟩ := hmem'
      rw [List.mem_filter] at he
      have he1 : e.1 = u := by simpa using he.2
      have heq : e = (u, u) := Prod.ext he1 he2
      rw [heq] at he
      exact meshEdge_irrefl F V.length hval u ((hmemE u u).mp he.1)
    · unfold adjFirsts at hmem'
      rw [spec_natAdj, if_neg hu] at hmem'
      simp at hmem'
  · intro u
    by_cases hu : u < V.length
    · rw [spec_adjFirsts V d _ hsort u hu]
      refine (List.nodup_map_iff_inj_on (hnodup.filter _)).mpr ?_
      intro x hx y hy hxy
      rw [List.mem_filter] at hx hy
      have hx1 : x.1 = u := by simpa using hx.2
      have hy1 : y.1 = u := by simpa using hy.2
      exact Prod.ext (hx1.trans hy1.symm) hxy
    · unfold adjFirsts
      rw [spec_natAdj, if_neg hu]
      simp
  · intro e
    rw [List.mem_filter]
    constructor
    · intro ⟨h1, h2⟩
      exact ⟨(hmemE e.1 e.2).mp h1, by simpa using h2⟩
    · intro ⟨h1, h2⟩
      exact ⟨(hmemE e.1 e.2).mpr h1, by simpa using h2⟩

/-- Witness for the amended claim C1 at a concrete covering mesh. -/
theorem claim_C1_witness :
    MeshValid exV3.length exF ∧ CoversVerts exV3.length exF ∧
    ((Graph.ofTris exV3 exDist exF).idxs.getD 0 0 = 0 ∧
    (∀ i, i < numVertices (Graph.ofTris exV3 exDist exF) →
      (Graph.ofTris exV3 exDist exF).idxs.getD i 0 ≤
        (Graph.ofTris exV3 exDist exF).idxs.getD (i + 1) 0) ∧
    (Graph.ofTris exV3 exDist exF).idxs.getD (numVertices (Graph.ofTris exV3 exDist exF)) 0 =
      (Graph.ofTris exV3 exDist exF).adjs.length ∧
    (Graph.ofTris exV3 exDist exF).adjs.length = 2 * numUndirEdges exF ∧
    (∀ u v, MeshEdge exF u v →
      (adjFirsts (Graph.ofTris exV3 exDist exF) u).count v = 1 ∧
      (adjFirsts (Graph.ofTris exV3 exDist exF) v).count u = 1) ∧
    (∀ u, u ∉ adjFirsts (Graph.ofTris exV3 exDist exF) u) ∧
    (∀ u, (adjFirsts (Graph.ofTris exV3 exDist exF) u).Nodup) ∧
    (∀ e : Edge, e ∈ (sortUnique (rawTriEdges exF)).filter (fun e => decide (e.1 < e.2)) ↔
      (MeshEdge exF e.1 e.2 ∧ e.1 < e.2))) :=
  ⟨by decide, by decide,
    claim_C1_csr_wellformed exV3 exDist exF (Graph.ofTris exV3 exDist exF)
      (by decide) (by decide) rfl⟩

/-- Claim C8 (implicit): for a graph built from a triangle list with
in-range indices in which every vertex occurs (no isolated vertices),
the accessors are total and in-bounds: `NumAdjacents(i)` is
non-negative for every vertex `i`, and `GetAdjacent(i, j)` indexes
inside the adjacency array for every `0 ≤ j < NumAdjacents(i)`. -/
theorem claim_C8_accessors_inbounds [Inhabited α] [Inhabited W] (V : List α)
    (d : α → α → W) (F : List Tri) (g : Graph α W)
    (hidx : ∀ t ∈ F, t.a < V.length ∧ t.b < V.length ∧ t.c < V.length)
    (hcov : CoversVerts V.length F)
    (hg : g = Graph.ofTris V d F) :
    (∀ i, i < numVertices g → 0 ≤ numAdjacents g i) ∧
    (∀ i j, i < numVertices g → j < natAdjacents g i →
      g.idxs.getD i 0 + j < g.adjs.length) := by
  have hspec := ofTris_spec V d F hidx hcov
  subst hg
  rw [hspec]
  have hsLT := sortUnique_pairwise_lt (rawTriEdges F)
  have hsort := hsLT.imp (fun h => edgeLT_first_le h)
  constructor
  · intro i hi
    rw [spec_numVertices] at hi
    unfold numAdjacents csrSpecGraph
    simp only [graphMk_idxs]
    rw [specIdxs_getD, specIdxs_getD, if_pos (by omega), if_pos (by omega),
      countLt_succ _ hsort i]
    omega
  · intro i j hi hj
    rw [spec_numVertices] at hi
    rw [spec_natAdj, if_pos hi, countLt_succ _ hsort i] at hj
    unfold csrSpecGraph
    simp only [graphMk_idxs, graphMk_adjs]
    rw [specIdxs_getD, if_pos (by omega)]
    have h1 : countLt (sortUnique (rawTriEdges F)) (i + 1) ≤
        (sortUnique (rawTriEdges F)).length := countLt_le_length _ _
    have h2 := countLt_succ _ hsort i
    have h3 : (csrSpecAdjs V d (sortUnique (rawTriEdges F)) : List (Nat × W)).length =
        (sortUnique (rawTriEdges F)).length := by
      unfold csrSpecAdjs
      simp
    rw [h3]
    omega

/-- Witness for claim C8 at a concrete covering mesh. -/
theorem claim_C8_witness :
    (∀ t ∈ exF, t.a < exV3.length ∧ t.b < exV3.length ∧ t.c < exV3.length) ∧
    CoversVerts exV3.length exF ∧
    ((∀ i, i < numVertices (Graph.ofTris exV3 exDist exF) →
      0 ≤ numAdjacents (Graph.ofTris exV3 exDist exF) i) ∧
    (∀ i j, i < numVertices (Graph.ofTris exV3 exDist exF) →
      j < natAdjacents (Graph.ofTris exV3 exDist exF) i →
      (Graph.ofTris exV3 exDist exF).idxs.getD i 0 + j <
        (Graph.ofTris exV3 exDist exF).adjs.length)) :=
  ⟨by decide, by decide,
    claim_C8_accessors_inbounds exV3 exDist exF (Graph.ofTris exV3 exDist exF)
      (by decide) (by decide) rfl⟩

lemma mem_edgesOfTris (F : List Tri) (f : Edge) :
    f ∈ edgesOfTris F ↔ ∃ t ∈ F, f = (t.a, t.b) ∨ f = (t.b, t.c) ∨ f = (t.c, t.a) := by
  unfold edgesOfTris
  rw [List.mem_flatten]
  constructor
  · intro ⟨l, hl, hf⟩
    rw [List.mem_map] at hl
    obtain ⟨t, ht, rfl⟩ := hl
    simp only [List.mem_cons, List.not_mem_nil, or_false] at hf
    exact ⟨t, ht, hf⟩
  · intro ⟨t, ht, hf⟩
    exact ⟨_, List.mem_map.mpr ⟨t, ht, rfl⟩, by simpa using hf⟩

lemma mem_symEdges (E : List Edge) (u v : Nat) :
    (u, v) ∈ symEdges E ↔ ∃ f ∈ E, (u = f.1 ∧ v = f.2) ∨ (u = f.2 ∧ v = f.1) := by
  unfold symEdges
  rw [List.mem_flatten]
  constructor
  · intro ⟨l, hl, hf⟩
    rw [List.mem_map] at hl
    obtain ⟨f, hfE, rfl⟩ := hl
    simp only [List.mem_cons, List.not_mem_nil, or_false] at hf
    exact ⟨f, hfE, pair_minmax_cases f.1 f.2 u v hf⟩
  · intro ⟨f, hfE, hor⟩
    refine ⟨_, List.mem_map.mpr ⟨f, hfE, rfl⟩, ?_⟩
    simp only [List.mem_cons, List.not_mem_nil, or_false]
    exact pair_minmax_intro f.1 f.2 u v hor

lemma mem_symEdges_edgesOfTris (F : List Tri) (u v : Nat) :
    (u, v) ∈ symEdges (edgesOfTris F) ↔ MeshEdge F u v := by
  rw [mem_symEdges]
  unfold MeshEdge
  constructor
  · intro ⟨f, hf, hor⟩
    rw [mem_edgesOfTris] at hf
    obtain ⟨t, ht, hc⟩ := hf
    refine ⟨t, ht, ?_⟩
    unfold SideOf
    rcases hc with rfl | rfl | rfl <;>
      rcases hor with ⟨h1, h2⟩ | ⟨h1, h2⟩ <;>
      simp only at h1 h2 <;> tauto
  · intro ⟨t, ht, hs⟩
    unfold SideOf at hs
    rcases hs with ⟨h1, h2⟩ | ⟨h1, h2⟩ | ⟨h1, h2⟩ | ⟨h1, h2⟩ | ⟨h1, h2⟩ | ⟨h1, h2⟩
    · exact ⟨(t.a, t.b), (mem_edgesOfTris F _).mpr ⟨t, ht, by tauto⟩, Or.inl ⟨h1, h2⟩⟩
    · exact ⟨(t.b, t.c), (mem_edgesOfTris F _).mpr ⟨t, ht, by tauto⟩, Or.inl ⟨h1, h2⟩⟩
    · exact ⟨(t.c, t.a), (mem_edgesOfTris F _).mpr ⟨t, ht, by tauto⟩, Or.inl ⟨h1, h2⟩⟩
    · exact ⟨(t.a, t.b), (mem_edgesOfTris F _).mpr ⟨t, ht, by tauto⟩, Or.inr ⟨h2, h1⟩⟩
    · exact ⟨(t.b, t.c), (mem_edgesOfTris F _).mpr ⟨t, ht, by tauto⟩, Or.inr ⟨h2, h1⟩⟩
    · exact ⟨(t.c, t.a), (mem_edgesOfTris F _).mpr ⟨t, ht, by tauto⟩, Or.inr ⟨h2, h1⟩⟩

lemma stream_tris_eq_edgeList (F : List Tri) :
    sortUnique (rawTriEdges F) = setList (symEdges (edgesOfTris F)) := by
  apply sorted_lt_ext _ _ (sortUnique_pairwise_lt _) (setList_pairwise_lt _)
  intro e
  rw [mem_sortUnique, mem_setList]
  obtain ⟨u, v⟩ := e
  rw [mem_rawTriEdges, mem_symEdges_edgesOfTris]

lemma stream_setList_invariant (L : List Edge) :
    setList (symEdges L) = setList (symEdges (setList L)) := by
  apply sorted_lt_ext _ _ (setList_pairwise_lt _) (setList_pairwise_lt _)
  intro e
  rw [mem_setList, mem_setList]
  obtain ⟨u, v⟩ := e
  rw [mem_symEdges, mem_symEdges]
  constructor
  · intro ⟨f, hf, hor⟩
    exact ⟨f, (mem_setList L f).mpr hf, hor⟩
  · intro ⟨f, hf, hor⟩
    exact ⟨f, (mem_setList L f).mp hf, hor⟩

/-- Claim C4: the three constructors normalize to the same CSR
representation — building from the triangle list `F`, from the list of
`F`'s edges, or from the set of `F`'s edges produces identical vertex,
offset and adjacency arrays. -/
theorem claim_C4_constructors_agree [Inhabited α] [Inhabited W] (V : List α)
    (d : α → α → W) (F : List Tri) :
    Graph.ofTris V d F = Graph.ofEdgeList V d (edgesOfTris F) ∧
    Graph.ofTris V d F = Graph.ofEdgeSet V d (setList (edgesOfTris F)) := by
  constructor
  · unfold Graph.ofTris Graph.ofEdgeList
    rw [stream_tris_eq_edgeList]
  · unfold Graph.ofTris Graph.ofEdgeSet
    rw [stream_tris_eq_edgeList, stream_setList_invariant]

/-! Checked construction: the same streaming loop with every vertex
and offset access bounds-checked, returning `none` where the C++ would
index out of bounds.  Mirrors the unconditional read
`Eigen::Vector3d CurVert = m_Verts[0]` before the loop (lines 51, 86,
121), the reloads `m_Verts[CurNode]` and reads `m_Verts[ONode]` inside
the loop, and the offset writes `m_Idxs[CurNode + 1]`. -/

/-- One bounds-checked iteration of the streaming loop. -/
def csrStepChecked [Inhabited α] (V : List α) (d : α → α → W) (st : CSRState α W)
    (e : Edge) : Option (CSRState α W) :=
  let step1 : Option (CSRState α W) :=
    if e.1 ≠ st.curNode then
      if st.curNode + 1 < st.idxs.length then
        match V.get? (st.curNode + 1) with
        | none => none
        | some cv => some (CSRState.mk (st.curNode + 1) cv
            (st.idxs.set (st.curNode + 1) st.adjs.length) st.adjs)
      else none
    else some st
  match step1 with
  | none => none
  | some st' =>
    match V.get? e.2 with
    | none => none
    | some ov => some (CSRState.mk st'.curNode st'.curVert st'.idxs
        (st'.adjs ++ [(e.2, d st'.curVert ov)]))

/-- Bounds-checked CSR construction. -/
def buildCSRChecked [Inhabited α] (V : List α) (d : α → α → W) (es : List Edge) :
    Option (Graph α W) :=
  match V.get? 0 with
  | none => none
  | some cv0 =>
    match es.foldlM (csrStepChecked V d)
        (CSRState.mk 0 cv0 (List.replicate (V.length + 1) 0) []) with
    | none => none
    | some st =>
      if st.curNode + 1 < st.idxs.length then
        some (Graph.mk V (st.idxs.set (st.curNode + 1) st.adjs.length) st.adjs)
      else none

/-- Bounds-checked triangle-list constructor. -/
def Graph.ofTrisChecked [Inhabited α] (V : List α) (d : α → α → W) (F : List Tri) :
    Option (Graph α W) :=
  buildCSRChecked V d (sortUnique (rawTriEdges F))

/-- Bounds-checked edge-list constructor. -/
def Graph.ofEdgeListChecked [Inhabited α] (V : List α) (d : α → α → W) (E : List Edge) :
    Option (Graph α W) :=
  buildCSRChecked V d (setList (symEdges E))

/-- Bounds-checked edge-set constructor. -/
def Graph.ofEdgeSetChecked [Inhabited α] (V : List α) (d : α → α → W) (E : List Edge) :
    Option (Graph α W) :=
  buildCSRChecked V d (setList (symEdges E))

lemma get?_eq_some_getD {β : Type} (l : List β) (d : β) (i : Nat) (h : i < l.length) :
    l.get? i = some (l.getD i d) := by
  rw [List.getD_eq_getElem _ _ h, List.get?_eq_get h]
  rfl

lemma csrStepChecked_eq [Inhabited α] [Inhabited W] (V : List α) (d : α → α → W)
    (st : CSRState α W) (e : Edge)
    (hcur : st.curNode < V.length) (hlen : st.idxs.length = V.length + 1)
    (he1 : e.1 < V.length) (he2 : e.2 < V.length) (hce : st.curNode ≤ e.1) :
    csrStepChecked V d st e = some (csrStep V d st e) := by
  unfold csrStepChecked csrStep
  by_cases htr : e.1 ≠ st.curNode
  · have hc1 : st.curNode + 1 < V.length := by omega
    rw [if_pos htr, if_pos htr]
    simp only
    rw [if_pos (by omega)]
    rw [get?_eq_some_getD V default (st.curNode + 1) hc1]
    simp only
    rw [get?_eq_some_getD V default e.2 he2]
  · rw [if_neg htr, if_neg htr]
    simp only
    rw [get?_eq_some_getD V default e.2 he2]

lemma csrStep_bounds [Inhabited α] [Inhabited W] (V : List α) (d : α → α → W)
    (st : CSRState α W) (e : Edge) (hcur : st.curNode < V.length)
    (he1 : e.1 < V.length) (hce : st.curNode ≤ e.1) :
    (csrStep V d st e).curNode < V.length ∧ (csrStep V d st e).curNode ≤ e.1 ∧
    (csrStep V d st e).idxs.length = st.idxs.length := by
  unfold csrStep
  by_cases htr : e.1 ≠ st.curNode
  · rw [if_pos htr]
    refine ⟨by simp only [csrMk_curNode]; omega, by simp only [csrMk_curNode]; omega, ?_⟩
    simp
  · rw [if_neg htr]
    exact ⟨by simpa using hcur, by simpa using hce, by simp⟩

lemma checked_fold [Inhabited α] [Inhabited W] (V : List α) (d : α → α → W) :
    ∀ (es : List Edge) (st : CSRState α W),
      st.curNode < V.length → st.idxs.length = V.length + 1 →
      (∀ e ∈ es, e.1 < V.length ∧ e.2 < V.length ∧ st.curNode ≤ e.1) →
      es.Pairwise (fun a b => a.1 ≤ b.1) →
      es.foldlM (csrStepChecked V d) st = some (es.foldl (csrStep V d) st) ∧
      (es.foldl (csrStep V d) st).curNode < V.length ∧
      (es.foldl (csrStep V d) st).idxs.length = V.length + 1 := by
  intro es
  induction es with
  | nil =>
    intro st hcur hlen _ _
    exact ⟨rfl, hcur, hlen⟩
  | cons e es ih =>
    intro st hcur hlen hflow hsort
    have he := hflow e (List.mem_cons_self e es)
    have hstep := csrStepChecked_eq V d st e hcur hlen he.1 he.2.1 he.2.2
    have hb := csrStep_bounds V d st e hcur he.1 he.2.2
    have hih := ih (csrStep V d st e) hb.1 (by rw [hb.2.2]; exact hlen)
      (fun f hf => ⟨(hflow f (List.mem_cons.mpr (Or.inr hf))).1,
        (hflow f (List.mem_cons.mpr (Or.inr hf))).2.1, by
          have h3 : e.1 ≤ f.1 := (List.pairwise_cons.mp hsort).1 f hf
          have := hb.2.1
          omega⟩)
      (List.pairwise_cons.mp hsort).2
    refine ⟨?_, by simpa using hih.2.1, by simpa using hih.2.2⟩
    rw [List.foldlM_cons, hstep]
    simp only [Option.bind_eq_bind, Option.some_bind]
    rw [hih.1]
    rfl

lemma buildCSRChecked_eq [Inhabited α] [Inhabited W] (V : List α) (d : α → α → W)
    (es : List Edge) (hV : V ≠ [])
    (hlt : ∀ e ∈ es, e.1 < V.length ∧ e.2 < V.length)
    (hsort : es.Pairwise (fun a b => a.1 ≤ b.1)) :
    buildCSRChecked V d es = some (buildCSR V d es) := by
  have hn : 0 < V.length := List.length_pos.mpr hV
  unfold buildCSRChecked
  rw [get?_eq_some_getD V default 0 hn]
  have hfold := checked_fold V d es
    (CSRState.mk 0 (V.getD 0 default) (List.replicate (V.length + 1) 0) [])
    (by simpa using hn) (by simp)
    (fun e he => ⟨(hlt e he).1, (hlt e he).2, Nat.zero_le _⟩) hsort
  simp only
  rw [hfold.1]
  simp only
  rw [if_pos (by
    have := hfold.2.1
    have := hfold.2.2
    omega)]
  rfl

/-- Claim C9 (implicit): every constructor reads the coordinates of
vertex `0` before iterating over the edges, so a non-empty vertex array
is a precondition: on an empty array the checked construction fails at
that very read.  Under that precondition, with all triangle or edge
indices in range, every vertex and offset access made during
construction is in bounds and the checked construction succeeds,
returning exactly the unchecked graph. -/
theorem claim_C9_nonempty_precondition [Inhabited α] [Inhabited W] :
    (∀ (d : α → α → W) (F : List Tri), Graph.ofTrisChecked ([] : List α) d F = none) ∧
    (∀ (d : α → α → W) (E : List Edge),
      Graph.ofEdgeListChecked ([] : List α) d E = none) ∧
    (∀ (d : α → α → W) (E : List Edge),
      Graph.ofEdgeSetChecked ([] : List α) d E = none) ∧
    (∀ (V : List α) (d : α → α → W) (F : List Tri), V ≠ [] →
      (∀ t ∈ F, t.a < V.length ∧ t.b < V.length ∧ t.c < V.length) →
      Graph.ofTrisChecked V d F = some (Graph.ofTris V d F)) ∧
    (∀ (V : List α) (d : α → α → W) (E : List Edge), V ≠ [] →
      (∀ e ∈ E, e.1 < V.length ∧ e.2 < V.length) →
      Graph.ofEdgeListChecked V d E = some (Graph.ofEdgeList V d E)) ∧
    (∀ (V : List α) (d : α → α → W) (E : List Edge), V ≠ [] →
      (∀ e ∈ E, e.1 < V.length ∧ e.2 < V.length) →
      Graph.ofEdgeSetChecked V d E = some (Graph.ofEdgeSet V d E)) := by
  refine ⟨fun d F => rfl, fun d E => rfl, fun d E => rfl, ?_, ?_, ?_⟩
  · intro V d F hV hidx
    apply buildCSRChecked_eq V d _ hV
    · intro e he
      exact rawTriEdges_bounds F V.length hidx e ((mem_sortUnique _ e).mp he)
    · exact (sortUnique_pairwise_lt _).imp edgeLT_first_le
  · intro V d E hV hidx
    apply buildCSRChecked_eq V d _ hV
    · intro e he
      exact symEdges_bounds E V.length hidx e ((mem_setList _ e).mp he)
    · exact (setList_pairwise_lt _).imp edgeLT_first_le
  · intro V d E hV hidx
    apply buildCSRChecked_eq V d _ hV
    · intro e he
      exact symEdges_bounds E V.length hidx e ((mem_setList _ e).mp he)
    · exact (setList_pairwise_lt _).imp edgeLT_first_le

/-- Witness for claim C9: the empty-array constructor fails and the
concrete valid mesh succeeds. -/
theorem claim_C9_witness :
    Graph.ofTrisChecked ([] : List Nat) exDist exF = none ∧
    Graph.ofTrisChecked exV3 exDist exF = some (Graph.ofTris exV3 exDist exF) :=
  ⟨(@claim_C9_nonempty_precondition Nat Nat _ _).1 exDist exF,
   (@claim_C9_nonempty_precondition Nat Nat _ _).2.2.2.1 exV3 exDist exF
     (by decide) (by decide)⟩

/-! Breadth-first traversal analysis for `ConnectedComponents`. -/

/-- Number of unvisited entries of a flag vector. -/
def count0 (l : List Nat) : Nat := l.countP (fun x => x == 0)

/-- A flag vector whose entries are all `0` or `1`. -/
def Binary (l : List Nat) : Prop := ∀ x ∈ l, x = 0 ∨ x = 1

lemma wf_idxs_le [Inhabited W] (g : Graph α W) (h : CSRWF g) :
    ∀ j, j ≤ numVertices g → ∀ i, i ≤ j → g.idxs.getD i 0 ≤ g.idxs.getD j 0 := by
  intro j
  induction j with
  | zero =>
    intro _ i hi
    have : i = 0 := by omega
    subst this
    exact Nat.le_refl _
  | succ j ih =>
    intro hj i hi
    rcases Nat.eq_or_lt_of_le hi with hij | hij
    · subst hij
      exact Nat.le_refl _
    · exact Nat.le_trans (ih (by omega) i (by omega)) (h.2.2.1 j (by omega))

lemma wf_deg_bound [Inhabited W] (g : Graph α W) (h : CSRWF g) (u : Nat)
    (hu : u < numVertices g) : g.idxs.getD (u + 1) 0 ≤ g.adjs.length := by
  have := wf_idxs_le g h (numVertices g) (Nat.le_refl _) (u + 1) (by omega)
  rw [h.2.2.2.1] at this
  exact this

lemma adjFirsts_length [Inhabited W] (g : Graph α W) (u : Nat) :
    (adjFirsts g u).length = natAdjacents g u := by
  unfold adjFirsts
  simp

lemma wf_natAdj_le [Inhabited W] (g : Graph α W) (h : CSRWF g) (u : Nat)
    (hu : u < numVertices g) : natAdjacents g u ≤ g.adjs.length := by
  rw [natAdjacents_eq]
  have := wf_deg_bound g h u hu
  omega

lemma wf_adjFirsts_lt [Inhabited W] (g : Graph α W) (h : CSRWF g) (u : Nat)
    (hu : u < numVertices g) : ∀ v ∈ adjFirsts g u, v < numVertices g := by
  intro v hv
  unfold adjFirsts at hv
  rw [List.mem_map] at hv
  obtain ⟨j, hj, rfl⟩ := hv
  rw [List.mem_range] at hj
  rw [natAdjacents_eq] at hj
  unfold getAdjacent
  have hpos : g.idxs.getD u 0 + j < g.adjs.length := by
    have h1 := wf_deg_bound g h u hu
    omega
  exact h.2.2.2.2.1 _ (getD_mem _ _ _ hpos)

lemma step_lt [Inhabited W] (g : Graph α W) (h : CSRWF g) {u v : Nat}
    (hu : u < numVertices g) (hs : Step g u v) : v < numVertices g :=
  wf_adjFirsts_lt g h u hu v hs

lemma conn_lt [Inhabited W] (g : Graph α W) (h : CSRWF g) {u v : Nat}
    (hu : u < numVertices g) (hc : Conn g u v) : v < numVertices g := by
  induction hc with
  | refl => exact hu
  | tail hab hbc ih => exact step_lt g h ih hbc

lemma conn_symm [Inhabited W] (g : Graph α W) (h : CSRWF g) {u v : Nat}
    (hu : u < numVertices g) (hc : Conn g u v) : Conn g v u := by
  induction hc with
  | refl => exact Relation.ReflTransGen.refl
  | tail hab hbc ih =>
    rename_i b c
    have hb : b < numVertices g := conn_lt g h hu hab
    have hcn : c < numVertices g := step_lt g h hb hbc
    have hstep : Step g c b := (h.2.2.2.2.2 b hb c hcn).mp hbc
    exact Relation.ReflTransGen.head hstep ih

lemma count0_cons (a : Nat) (t : List Nat) :
    count0 (a :: t) = count0 t + if a = 0 then 1 else 0 := by
  unfold count0
  rw [List.countP_cons]
  by_cases h : a = 0 <;> simp [h]

lemma count0_le_length (l : List Nat) : count0 l ≤ l.length :=
  List.countP_le_length _

lemma sum_lt_mem_zero (l : List Nat) (h : l.sum < l.length) : ∃ x ∈ l, x = 0 := by
  induction l with
  | nil => simp at h
  | cons a t ih =>
    by_cases ha : a = 0
    · exact ⟨a, List.mem_cons_self a t, ha⟩
    · have h1 : t.sum < t.length := by
        rw [List.sum_cons, List.length_cons] at h
        omega
      obtain ⟨x, hx, hx0⟩ := ih h1
      exact ⟨x, List.mem_cons.mpr (Or.inr hx), hx0⟩

lemma binary_sum_le (l : List Nat) (hb : Binary l) : l.sum ≤ l.length := by
  induction l with
  | nil => simp
  | cons a t ih =>
    have hbt : Binary t := fun x hx => hb x (List.mem_cons.mpr (Or.inr hx))
    have ha : a = 0 ∨ a = 1 := hb a (List.mem_cons_self a t)
    have := ih hbt
    rw [List.sum_cons, List.length_cons]
    omega

lemma binary_all_one (l : List Nat) (hb : Binary l) (h : ¬ l.sum < l.length) :
    ∀ i, i < l.length → l.getD i 0 = 1 := by
  induction l with
  | nil => intro i hi; simp at hi
  | cons a t ih =>
    have hbt : Binary t := fun x hx => hb x (List.mem_cons.mpr (Or.inr hx))
    have ha : a = 0 ∨ a = 1 := hb a (List.mem_cons_self a t)
    have hs := binary_sum_le t hbt
    rw [List.sum_cons, List.length_cons] at h
    intro i hi
    cases i with
    | zero =>
      rw [List.getD_cons_zero]
      omega
    | succ i =>
      rw [List.getD_cons_succ]
      refine ih hbt (by omega) i (by simpa using hi)

lemma findFirstZero_spec (l : List Nat) (h : ∃ x ∈ l, x = 0) :
    ∃ i, findFirstZero l = some i ∧ i < l.length ∧ l.getD i 0 = 0 := by
  induction l with
  | nil => simp at h
  | cons a t ih =>
    by_cases ha : a = 0
    · refine ⟨0, ?_, by simp, by simpa using ha⟩
      unfold findFirstZero
      rw [if_pos ha]
    · have ht : ∃ x ∈ t, x = 0 := by
        obtain ⟨x, hx, hx0⟩ := h
        rcases List.mem_cons.mp hx with rfl | hxt
        · exact absurd hx0 ha
        · exact ⟨x, hxt, hx0⟩
      obtain ⟨i, hi, hilt, hi0⟩ := ih ht
      refine ⟨i + 1, ?_, by simpa using hilt, by simpa using hi0⟩
      unfold findFirstZero
      rw [if_neg ha, hi]
      rfl

lemma findRoot_spec (l : List Nat) (h : l.sum < l.length) :
    findRoot l < l.length ∧ l.getD (findRoot l) 0 = 0 := by
  obtain ⟨i, hi, hilt, hi0⟩ := findFirstZero_spec l (sum_lt_mem_zero l h)
  unfold findRoot
  rw [hi]
  exact ⟨hilt, hi0⟩

lemma count0_set1 (l : List Nat) (i : Nat) (hi : i < l.length) (h0 : l.getD i 0 = 0) :
    count0 (l.set i 1) + 1 = count0 l := by
  induction l generalizing i with
  | nil => simp at hi
  | cons a t ih =>
    cases i with
    | zero =>
      rw [List.getD_cons_zero] at h0
      subst h0
      rw [List.set_cons_zero, count0_cons, count0_cons]
      simp
    | succ i =>
      rw [List.getD_cons_succ] at h0
      rw [List.set_cons_succ, count0_cons, count0_cons]
      have := ih i (by simpa using hi) h0
      omega

lemma count0_mono_le (l l' : List Nat) (hlen : l.length = l'.length)
    (hmono : ∀ i, i < l.length → l.getD i 0 = 1 → l'.getD i 0 = 1)
    (hb : Binary l) (hb' : Binary l') : count0 l' ≤ count0 l := by
  induction l generalizing l' with
  | nil =>
    cases l' with
    | nil => exact Nat.le_refl _
    | cons => simp at hlen
  | cons a t ih =>
    cases l' with
    | nil => simp at hlen
    | cons b t' =>
      have hbt : Binary t := fun x hx => hb x (List.mem_cons.mpr (Or.inr hx))
      have hbt' : Binary t' := fun x hx => hb' x (List.mem_cons.mpr (Or.inr hx))
      have htail := ih t' (by simpa using hlen)
        (fun i hilt h1 => by
          have := hmono (i + 1) (by simpa using hilt) (by simpa using h1)
          simpa using this) hbt hbt'
      have hhead : b = 0 → a = 0 := by
        intro hb0
        rcases hb a (List.mem_cons_self a t) with h | h
        · exact h
        · have := hmono 0 (by simp) (by simpa using h)
          rw [List.getD_cons_zero] at this
          omega
      rw [count0_cons, count0_cons]
      by_cases hbz : b = 0
      · rw [if_pos hbz, if_pos (hhead hbz)]
        omega
      · rw [if_neg hbz]
        by_cases haz : a = 0 <;> simp [haz] <;> omega

lemma count0_strict (l l' : List Nat) (hlen : l.length = l'.length)
    (hmono : ∀ i, i < l.length → l.getD i 0 = 1 → l'.getD i 0 = 1)
    (hb : Binary l) (hb' : Binary l')
    (r : Nat) (hr : r < l.length) (hr0 : l.getD r 0 = 0) (hr1 : l'.getD r 0 = 1) :
    count0 l' < count0 l := by
  induction l generalizing l' r with
  | nil => simp at hr
  | cons a t ih =>
    cases l' with
    | nil => simp at hlen
    | cons b t' =>
      have hbt : Binary t := fun x hx => hb x (List.mem_cons.mpr (Or.inr hx))
      have hbt' : Binary t' := fun x hx => hb' x (List.mem_cons.mpr (Or.inr hx))
      have hmt : ∀ i, i < t.length → t.getD i 0 = 1 → t'.getD i 0 = 1 := by
        intro i hilt h1
        have := hmono (i + 1) (by simpa using hilt) (by simpa using h1)
        simpa using this
      have hhead : b = 0 → a = 0 := by
        intro hb0
        rcases hb a (List.mem_cons_self a t) with h | h
        · exact h
        · have := hmono 0 (by simp) (by simpa using h)
          rw [List.getD_cons_zero] at this
          omega
      rw [count0_cons, count0_cons]
      cases r with
      | zero =>
        rw [List.getD_cons_zero] at hr0 hr1
        subst hr0
        have htail := count0_mono_le t t' (by simpa using hlen) hmt hbt hbt'
        rw [if_pos rfl, if_neg (by omega)]
        omega
      | succ r =>
        rw [List.getD_cons_succ] at hr0 hr1
        have htail := ih t' (by simpa using hlen) hmt hbt hbt' r
          (by simpa using hr) hr0 hr1
        by_cases hbz : b = 0
        · rw [if_pos hbz, if_pos (hhead hbz)]
          omega
        · rw [if_neg hbz]
          by_cases haz : a = 0 <;> simp [haz] <;> omega

/-- A vertex first visited during the current breadth-first round:
in range, visited now, not visited when the round started. -/
def Marked (n : Nat) (vis0 : List Nat) (st : CCState) (u : Nat) : Prop :=
  u < n ∧ st.visited.getD u 0 = 1 ∧ vis0.getD u 0 = 0

/-- Invariant of the inner breadth-first loop of `ConnectedComponents`,
relative to the state `st0` at the start of the round and the round's
root. -/
structure BfsInv [Inhabited W] (g : Graph α W) (st0 : CCState) (root : Nat)
    (q : List Nat) (st : CCState) : Prop where
  hcc : st.cc.length = numVertices g
  hvis : st.visited.length = numVertices g
  hlab : st.curCC = st0.curCC
  hbin : Binary st.visited
  hmono : ∀ u, u < numVertices g → st0.visited.getD u 0 = 1 → st.visited.getD u 0 = 1
  hccm : ∀ u, Marked (numVertices g) st0.visited st u → st.cc.getD u 0 = st0.curCC
  hccu : ∀ u, u < numVertices g →
    (st0.visited.getD u 0 = 1 ∨ st.visited.getD u 0 = 0) →
    st.cc.getD u 0 = st0.cc.getD u 0
  hreach : ∀ u, Marked (numVertices g) st0.visited st u → Conn g root u
  hq : ∀ x ∈ q, x < numVertices g ∧ Conn g root x
  hfront : ∀ u, Marked (numVertices g) st0.visited st u →
    ∀ v, Step g u v → st.visited.getD v 0 = 1 ∨ v ∈ q
  hroot : Marked (numVertices g) st0.visited st root ∨ root ∈ q

lemma bfs_run [Inhabited W] (g : Graph α W) (wf : CSRWF g) (st0 : CCState) (root : Nat)
    (hroot0 : st0.visited.getD root 0 = 0) :
    ∀ (fuel : Nat) (q : List Nat) (st : CCState),
      BfsInv g st0 root q st →
      q.length + count0 st.visited * (g.adjs.length + 2) ≤ fuel →
      ∃ st', bfsLoop g fuel q st = some st' ∧ BfsInv g st0 root [] st' := by
  intro fuel
  induction fuel with
  | zero =>
    intro q st hinv hfuel
    cases q with
    | nil => exact ⟨st, rfl, hinv⟩
    | cons v q' => simp at hfuel
  | succ fuel ih =>
    intro q st hinv hfuel
    cases q with
    | nil => exact ⟨st, rfl, hinv⟩
    | cons v q' =>
      have hv := hinv.hq v (List.mem_cons_self v q')
      by_cases hvis : st.visited.getD v 0 ≠ 0
      · -- already visited: skip
        have heq : bfsLoop g (fuel + 1) (v :: q') st = bfsLoop g fuel q' st := by
          simp only [bfsLoop]
          rw [if_pos hvis]
        rw [heq]
        apply ih q' st
        · refine ⟨hinv.hcc, hinv.hvis, hinv.hlab, hinv.hbin, hinv.hmono, hinv.hccm,
            hinv.hccu, hinv.hreach, ?_, ?_, ?_⟩
          · intro x hx
            exact hinv.hq x (List.mem_cons.mpr (Or.inr hx))
          · intro u hu w hw
            rcases hinv.hfront u hu w hw with h | h
            · exact Or.inl h
            · rcases List.mem_cons.mp h with rfl | h'
              · left
                rcases hinv.hbin (st.visited.getD w 0) (getD_mem _ _ _ (by
                  rw [hinv.hvis]
                  exact hv.1)) with h0 | h1
                · exact absurd h0 hvis
                · exact h1
              · exact Or.inr h'
          · rcases hinv.hroot with h | h
            · exact Or.inl h
            · rcases List.mem_cons.mp h with rfl | h'
              · left
                refine ⟨hv.1, ?_, hroot0⟩
                rcases hinv.hbin (st.visited.getD root 0) (getD_mem _ _ _ (by
                  rw [hinv.hvis]
                  exact hv.1)) with h0 | h1
                · exact absurd h0 hvis
                · exact h1
              · exact Or.inr h'
        · simp only [List.length_cons] at hfuel
          omega
      · -- newly visited: label, mark, push neighbors
        push_neg at hvis
        have heq : bfsLoop g (fuel + 1) (v :: q') st =
            bfsLoop g fuel (q' ++ adjFirsts g v)
              (CCState.mk (st.cc.set v st.curCC) (st.visited.set v 1) st.curCC) := by
          simp only [bfsLoop]
          rw [if_neg (by simpa using hvis)]
        rw [heq]
        have hvlen : v < st.visited.length := by
          rw [hinv.hvis]
          exact hv.1
        have hclen : v < st.cc.length := by
          rw [hinv.hcc]
          exact hv.1
        have hset1 : (st.visited.set v 1).getD v 0 = 1 := getD_set_eq _ _ _ _ hvlen
        have hsetn : ∀ u, u ≠ v → (st.visited.set v 1).getD u 0 = st.visited.getD u 0 :=
          fun u hu => getD_set_ne _ _ _ _ _ (fun h => hu h.symm)
        have hprev : ∀ u, u < numVertices g → st.visited.getD u 0 = 1 →
            (st.visited.set v 1).getD u 0 = 1 := by
          intro u hu h1
          by_cases huv : u = v
          · subst huv
            exact hset1
          · rw [hsetn u huv]
            exact h1
        apply ih (q' ++ adjFirsts g v)
          (CCState.mk (st.cc.set v st.curCC) (st.visited.set v 1) st.curCC)
        · refine ⟨by simpa using hinv.hcc, by simpa using hinv.hvis,
            by simpa using hinv.hlab, ?_, ?_, ?_, ?_, ?_, ?_, ?_, ?_⟩
          · -- binary
            intro x hx
            rcases List.mem_or_eq_of_mem_set hx with hx' | rfl
            · exact hinv.hbin x hx'
            · exact Or.inr rfl
          · -- monotone over the initial visited set
            intro u hu h1
            simp only [csrMk_curNode]
            exact hprev u hu (hinv.hmono u hu h1)
          · -- newly marked vertices carry the current label
            intro u hu
            obtain ⟨hun, hu1, hu0⟩ := hu
            simp only at hu1 ⊢
            rw [hinv.hlab]
            by_cases huv : u = v
            · subst huv
              rw [getD_set_eq _ _ _ _ hclen]
            · rw [getD_set_ne _ _ _ _ _ (fun h => huv h.symm)]
              rw [hsetn u huv] at hu1
              exact hinv.hccm u ⟨hun, hu1, hu0⟩
          · -- labels of untouched vertices are unchanged
            intro u hu hcase
            simp only at hcase ⊢
            have huv : u ≠ v := by
              intro h
              subst h
              rcases hcase with h1 | h1
              · have := hinv.hmono u hu h1
                omega
              · rw [hset1] at h1
                omega
            rw [getD_set_ne _ _ _ _ _ (fun h => huv h.symm)]
            rw [hsetn u huv] at hcase
            exact hinv.hccu u hu hcase
          · -- marked vertices are reachable from the root
            intro u hu
            obtain ⟨hun, hu1, hu0⟩ := hu
            simp only at hu1
            by_cases huv : u = v
            · subst huv
              exact hv.2
            · rw [hsetn u huv] at hu1
              exact hinv.hreach u ⟨hun, hu1, hu0⟩
          · -- queue contents are in range and reachable
            intro x hx
            rcases List.mem_append.mp hx with hx' | hx'
            · exact hinv.hq x (List.mem_cons.mpr (Or.inr hx'))
            · exact ⟨wf_adjFirsts_lt g wf v hv.1 x hx',
                Relation.ReflTransGen.tail hv.2 hx'⟩
          · -- frontier: neighbors of marked vertices are visited or queued
            intro u hu w hw
            obtain ⟨hun, hu1, hu0⟩ := hu
            simp only at hu1 ⊢
            by_cases huv : u = v
            · subst huv
              exact Or.inr (List.mem_append.mpr (Or.inr hw))
            · rw [hsetn u huv] at hu1
              rcases hinv.hfront u ⟨hun, hu1, hu0⟩ w hw with h | h
              · exact Or.inl (hprev w (step_lt g wf hun hw) h)
              · rcases List.mem_cons.mp h with rfl | h'
                · exact Or.inl hset1
                · exact Or.inr (List.mem_append.mpr (Or.inl h'))
          · -- the root is marked or queued
            rcases hinv.hroot with h | h
            · obtain ⟨hrn, hr1, hr0⟩ := h
              exact Or.inl ⟨hrn, by simpa using hprev root hrn hr1, hr0⟩
            · rcases List.mem_cons.mp h with rfl | h'
              · exact Or.inl ⟨hv.1, by simpa using hset1, hroot0⟩
              · exact Or.inr (List.mem_append.mpr (Or.inl h'))
        · -- fuel accounting
          have hc0 : count0 (st.visited.set v 1) + 1 = count0 st.visited :=
            count0_set1 _ _ hvlen hvis
          have hdeg : (adjFirsts g v).length ≤ g.adjs.length := by
            rw [adjFirsts_length]
            exact wf_natAdj_le g wf v hv.1
          simp only [csrMk_curNode, List.length_append, List.length_cons] at hfuel ⊢
          have hM : 1 * (g.adjs.length + 2) ≤ count0 st.visited * (g.adjs.length + 2) := by
            apply Nat.mul_le_mul_right
            omega
          have hsub : count0 (st.visited.set v 1) * (g.adjs.length + 2) + (g.adjs.length + 2)
              = count0 st.visited * (g.adjs.length + 2) := by
            rw [← hc0]
            ring
          omega

lemma bfs_post_vis [Inhabited W] (g : Graph α W) (wf : CSRWF g) (st0 : CCState)
    (root : Nat) (hbin0 : Binary st0.visited) (hvis0 : st0.visited.length = numVertices g)
    (hclosed : ∀ u, u < numVertices g → st0.visited.getD u 0 = 1 →
      ∀ v, Step g u v → st0.visited.getD v 0 = 1)
    (st' : CCState) (hinv : BfsInv g st0 root [] st') :
    ∀ u, u < numVertices g →
      (st'.visited.getD u 0 = 1 ↔ (st0.visited.getD u 0 = 1 ∨ Conn g root u)) := by
  have hrootm : Marked (numVertices g) st0.visited st' root := by
    rcases hinv.hroot with h | h
    · exact h
    · simp at h
  intro u hu
  constructor
  · intro h1
    rcases hbin0 (st0.visited.getD u 0) (getD_mem _ _ _ (by rw [hvis0]; exact hu))
      with h0 | h0
    · exact Or.inr (hinv.hreach u ⟨hu, h1, h0⟩)
    · exact Or.inl h0
  · intro h
    rcases h with h | h
    · exact hinv.hmono u hu h
    · -- walk the path: every vertex reachable from the root ends visited
      have hgen : ∀ w, Conn g root w → w < numVertices g ∧ st'.visited.getD w 0 = 1 := by
        intro w hw
        induction hw with
        | refl => exact ⟨hrootm.1, hrootm.2.1⟩
        | tail hab hbc ihw =>
          rename_i b c
          obtain ⟨hbn, hb1⟩ := ihw
          have hcn : c < numVertices g := step_lt g wf hbn hbc
          refine ⟨hcn, ?_⟩
          rcases hbin0 (st0.visited.getD b 0) (getD_mem _ _ _ (by rw [hvis0]; exact hbn))
            with h0 | h0
          · rcases hinv.hfront b ⟨hbn, hb1, h0⟩ c hbc with hres | hres
            · exact hres
            · simp at hres
          · exact hinv.hmono c hcn (hclosed b hbn h0 c hbc)
      exact (hgen u h).2

lemma bfs_post_cc_new [Inhabited W] (g : Graph α W) (wf : CSRWF g) (st0 : CCState)
    (root : Nat) (hbin0 : Binary st0.visited) (hvis0 : st0.visited.length = numVertices g)
    (hclosed : ∀ u, u < numVertices g → st0.visited.getD u 0 = 1 →
      ∀ v, Step g u v → st0.visited.getD v 0 = 1)
    (st' : CCState) (hinv : BfsInv g st0 root [] st') :
    ∀ u, u < numVertices g → st0.visited.getD u 0 = 0 → Conn g root u →
      st'.cc.getD u 0 = st0.curCC := by
  intro u hu h0 hc
  have h1 := (bfs_post_vis g wf st0 root hbin0 hvis0 hclosed st' hinv u hu).mpr (Or.inr hc)
  exact hinv.hccm u ⟨hu, h1, h0⟩

lemma bfs_post_cc_old [Inhabited W] (g : Graph α W) (wf : CSRWF g) (st0 : CCState)
    (root : Nat) (hbin0 : Binary st0.visited) (hvis0 : st0.visited.length = numVertices g)
    (hclosed : ∀ u, u < numVertices g → st0.visited.getD u 0 = 1 →
      ∀ v, Step g u v → st0.visited.getD v 0 = 1)
    (st' : CCState) (hinv : BfsInv g st0 root [] st') :
    ∀ u, u < numVertices g → (st0.visited.getD u 0 = 1 ∨ ¬ Conn g root u) →
      st'.cc.getD u 0 = st0.cc.getD u 0 := by
  intro u hu hcase
  rcases hcase with h | h
  · exact hinv.hccu u hu (Or.inl h)
  · rcases hinv.hbin (st'.visited.getD u 0) (getD_mem _ _ _ (by
      rw [hinv.hvis]; exact hu)) with h0 | h0
    · exact hinv.hccu u hu (Or.inr h0)
    · rcases (bfs_post_vis g wf st0 root hbin0 hvis0 hclosed st' hinv u hu).mp h0
        with h1 | h1
      · exact hinv.hccu u hu (Or.inl h1)
      · exact absurd h1 h

/-- Invariant of the outer loop of `ConnectedComponents`: the visited
set is a union of complete components, one per label below `CurCC`. -/
structure CCInv [Inhabited W] (g : Graph α W) (st : CCState) : Prop where
  hcc : st.cc.length = numVertices g
  hvis : st.visited.length = numVertices g
  hbin : Binary st.visited
  hbound : ∀ u, u < numVertices g → st.visited.getD u 0 = 1 →
    st.cc.getD u 0 < st.curCC
  honto : ∀ l, l < st.curCC → ∃ u, u < numVertices g ∧ st.visited.getD u 0 = 1 ∧
    st.cc.getD u 0 = l
  hclass : ∀ u, u < numVertices g → st.visited.getD u 0 = 1 →
    ∀ v, v < numVertices g →
      (Conn g u v ↔ (st.visited.getD v 0 = 1 ∧ st.cc.getD v 0 = st.cc.getD u 0))

lemma cc_round [Inhabited W] (g : Graph α W) (wf : CSRWF g) (st : CCState)
    (hinv : CCInv g st) (hlt : st.visited.sum < numVertices g) :
    ∃ st', bfsLoop g (innerFuel g) [findRoot st.visited] st = some st' ∧
      CCInv g (CCState.mk st'.cc st'.visited (st'.curCC + 1)) ∧
      count0 st'.visited < count0 st.visited := by
  have hsum : st.visited.sum < st.visited.length := by
    rw [hinv.hvis]
    exact hlt
  obtain ⟨hrootlt', hroot0⟩ := findRoot_spec st.visited hsum
  have hrootlt : findRoot st.visited < numVertices g := by
    rw [← hinv.hvis]
    exact hrootlt'
  have hclosed : ∀ u, u < numVertices g → st.visited.getD u 0 = 1 →
      ∀ v, Step g u v → st.visited.getD v 0 = 1 := by
    intro u hu h1 v hs
    have hvn : v < numVertices g := step_lt g wf hu hs
    exact ((hinv.hclass u hu h1 v hvn).mp (Relation.ReflTransGen.single hs)).1
  have hinit : BfsInv g st (findRoot st.visited) [findRoot st.visited] st := by
    refine ⟨hinv.hcc, hinv.hvis, rfl, hinv.hbin, fun u _ h => h, ?_, fun u _ _ => rfl,
      ?_, ?_, ?_, Or.inr (List.mem_singleton.mpr rfl)⟩
    · intro u hu
      obtain ⟨_, h1, h0⟩ := hu
      omega
    · intro u hu
      obtain ⟨_, h1, h0⟩ := hu
      omega
    · intro x hx
      rw [List.mem_singleton] at hx
      subst hx
      exact ⟨hrootlt, Relation.ReflTransGen.refl⟩
    · intro u hu
      obtain ⟨_, h1, h0⟩ := hu
      omega
  have hfuel : [findRoot st.visited].length +
      count0 st.visited * (g.adjs.length + 2) ≤ innerFuel g := by
    unfold innerFuel
    have h1 : count0 st.visited ≤ numVertices g := by
      rw [← hinv.hvis]
      exact count0_le_length _
    have h2 : count0 st.visited * (g.adjs.length + 2) ≤
        numVertices g * (g.adjs.length + 2) := Nat.mul_le_mul_right _ h1
    simp only [List.length_singleton]
    omega
  obtain ⟨st', hrun, hinv'⟩ := bfs_run g wf st (findRoot st.visited) hroot0
    (innerFuel g) [findRoot st.visited] st hinit hfuel
  have hvchar := bfs_post_vis g wf st (findRoot st.visited) hinv.hbin hinv.hvis
    hclosed st' hinv'
  have hccnew := bfs_post_cc_new g wf st (findRoot st.visited) hinv.hbin hinv.hvis
    hclosed st' hinv'
  have hccold := bfs_post_cc_old g wf st (findRoot st.visited) hinv.hbin hinv.hvis
    hclosed st' hinv'
  have hF1 : ∀ v, v < numVertices g → Conn g (findRoot st.visited) v →
      st.visited.getD v 0 = 0 := by
    intro v hvn hc
    rcases hinv.hbin (st.visited.getD v 0) (getD_mem _ _ _ (by
      rw [hinv.hvis]; exact hvn)) with h0 | h0
    · exact h0
    · exfalso
      have hcsym : Conn g v (findRoot st.visited) := conn_symm g wf hrootlt hc
      have := ((hinv.hclass v hvn h0 (findRoot st.visited) hrootlt).mp hcsym).1
      omega
  have hrootvis' : st'.visited.getD (findRoot st.visited) 0 = 1 :=
    (hvchar _ hrootlt).mpr (Or.inr Relation.ReflTransGen.refl)
  have hrootcc' : st'.cc.getD (findRoot st.visited) 0 = st.curCC :=
    hccnew _ hrootlt hroot0 Relation.ReflTransGen.refl
  refine ⟨st', hrun, ?_, ?_⟩
  · -- re-establish the outer invariant with the incremented label
    refine ⟨by simpa using hinv'.hcc, by simpa using hinv'.hvis, ?_, ?_, ?_, ?_⟩
    · intro x hx
      exact hinv'.hbin x hx
    · -- label bound
      intro u hu h1
      simp only [csrMk_curNode] at h1 ⊢
      rw [hinv'.hlab]
      rcases (hvchar u hu).mp h1 with h0 | h0
      · have := hccold u hu (Or.inl h0)
        have := hinv.hbound u hu h0
        omega
      · by_cases hold : st.visited.getD u 0 = 1
        · have := hccold u hu (Or.inl hold)
          have := hinv.hbound u hu hold
          omega
        · have hz : st.visited.getD u 0 = 0 := by
            rcases hinv.hbin (st.visited.getD u 0) (getD_mem _ _ _ (by
              rw [hinv.hvis]; exact hu)) with h' | h'
            · exact h'
            · exact absurd h' hold
          have := hccnew u hu hz h0
          omega
    · -- every label below the new counter is inhabited
      intro l hl
      simp only [csrMk_curNode] at hl
      rw [hinv'.hlab] at hl
      rcases Nat.lt_or_ge l st.curCC with hl' | hl'
      · obtain ⟨u, hun, hu1, hucc⟩ := hinv.honto l hl'
        refine ⟨u, hun, (hvchar u hun).mpr (Or.inl hu1), ?_⟩
        simp only
        rw [hccold u hun (Or.inl hu1)]
        exact hucc
      · have hleq : l = st.curCC := by omega
        subst hleq
        exact ⟨findRoot st.visited, hrootlt, hrootvis', by simpa using hrootcc'⟩
    · -- label classes are exactly connected components
      intro u hu h1 v hvn
      simp only [csrMk_curNode] at h1 ⊢
      have hubin : st.visited.getD u 0 = 0 ∨ st.visited.getD u 0 = 1 :=
        hinv.hbin _ (getD_mem _ _ _ (by rw [hinv.hvis]; exact hu))
      rcases (hvchar u hu).mp h1 with hA | hB
      · -- u belongs to an old component
        have hcu : st'.cc.getD u 0 = st.cc.getD u 0 := hccold u hu (Or.inl hA)
        constructor
        · intro hConn
          have hold := (hinv.hclass u hu hA v hvn).mp hConn
          refine ⟨(hvchar v hvn).mpr (Or.inl hold.1), ?_⟩
          rw [hccold v hvn (Or.inl hold.1), hcu]
          exact hold.2
        · intro ⟨hv1, hveq⟩
          by_cases hvold : st.visited.getD v 0 = 1
          · apply (hinv.hclass u hu hA v hvn).mpr
            refine ⟨hvold, ?_⟩
            rw [hccold v hvn (Or.inl hvold), hcu] at hveq
            exact hveq
          · exfalso
            have hvz : st.visited.getD v 0 = 0 := by
              rcases hinv.hbin (st.visited.getD v 0) (getD_mem _ _ _ (by
                rw [hinv.hvis]; exact hvn)) with h' | h'
              · exact h'
              · exact absurd h' hvold
            rcases (hvchar v hvn).mp hv1 with h' | h'
            · omega
            · have := hccnew v hvn hvz h'
              have := hinv.hbound u hu hA
              rw [hcu] at hveq
              omega
      · -- u was marked in this round
        have hu0 : st.visited.getD u 0 = 0 := hF1 u hu hB
        have hcu : st'.cc.getD u 0 = st.curCC := hccnew u hu hu0 hB
        constructor
        · intro hConn
          have hcv : Conn g (findRoot st.visited) v :=
            Relation.ReflTransGen.trans hB hConn
          have hv0 : st.visited.getD v 0 = 0 := hF1 v hvn hcv
          refine ⟨(hvchar v hvn).mpr (Or.inr hcv), ?_⟩
          rw [hccnew v hvn hv0 hcv, hcu]
        · intro ⟨hv1, hveq⟩
          rw [hcu] at hveq
          by_cases hvold : st.visited.getD v 0 = 1
          · exfalso
            have := hccold v hvn (Or.inl hvold)
            have := hinv.hbound v hvn hvold
            omega
          · have hvz : st.visited.getD v 0 = 0 := by
              rcases hinv.hbin (st.visited.getD v 0) (getD_mem _ _ _ (by
                rw [hinv.hvis]; exact hvn)) with h' | h'
              · exact h'
              · exact absurd h' hvold
            rcases (hvchar v hvn).mp hv1 with h' | h'
            · omega
            · -- v is in the root's component, hence connected to u
              have hur : Conn g u (findRoot st.visited) := conn_symm g wf hrootlt hB
              exact Relation.ReflTransGen.trans hur h'
  · -- the unvisited count strictly decreases
    apply count0_strict st.visited st'.visited (by rw [hinv.hvis, hinv'.hvis])
      (fun i hilt h1 => hinv'.hmono i (by rw [← hinv.hvis]; exact hilt) h1)
      hinv.hbin hinv'.hbin (findRoot st.visited) hrootlt' hroot0
    exact hrootvis'

lemma ccInv_final [Inhabited W] (g : Graph α W) (st : CCState) (hinv : CCInv g st)
    (hall : ¬ st.visited.sum < numVertices g) :
    (∀ u, u < numVertices g → ∀ v, v < numVertices g →
      (st.cc.getD u 0 = st.cc.getD v 0 ↔ Conn g u v)) ∧
    (∀ u, u < numVertices g → st.cc.getD u 0 < st.curCC) ∧
    (∀ l, l < st.curCC → ∃ u, u < numVertices g ∧ st.cc.getD u 0 = l) := by
  have hvis1 : ∀ u, u < numVertices g → st.visited.getD u 0 = 1 := by
    intro u hu
    apply binary_all_one st.visited hinv.hbin
    · rw [hinv.hvis]
      exact hall
    · rw [hinv.hvis]
      exact hu
  refine ⟨?_, ?_, ?_⟩
  · intro u hu v hv
    constructor
    · intro heq
      exact (hinv.hclass u hu (hvis1 u hu) v hv).mpr ⟨hvis1 v hv, heq.symm⟩
    · intro hc
      exact ((hinv.hclass u hu (hvis1 u hu) v hv).mp hc).2.symm
  · intro u hu
    exact hinv.hbound u hu (hvis1 u hu)
  · intro l hl
    obtain ⟨u, hun, _, hucc⟩ := hinv.honto l hl
    exact ⟨u, hun, hucc⟩

lemma ccLoop_run [Inhabited W] (g : Graph α W) (wf : CSRWF g) :
    ∀ (fuel : Nat) (st : CCState), CCInv g st → count0 st.visited ≤ fuel →
      ∃ out, ccLoop g (innerFuel g) fuel st = some out ∧
        out.length = numVertices g ∧
        (∀ u, u < numVertices g → ∀ v, v < numVertices g →
          (out.getD u 0 = out.getD v 0 ↔ Conn g u v)) ∧
        ∃ k, (∀ u, u < numVertices g → out.getD u 0 < k) ∧
          (∀ l, l < k → ∃ u, u < numVertices g ∧ out.getD u 0 = l) := by
  intro fuel
  induction fuel with
  | zero =>
    intro st hinv hc
    have hns : ¬ st.visited.sum < numVertices g := by
      intro hlt
      have hsum : st.visited.sum < st.visited.length := by
        rw [hinv.hvis]
        exact hlt
      obtain ⟨x, hx, hx0⟩ := sum_lt_mem_zero _ hsum
      have hpos : 0 < count0 st.visited := by
        unfold count0
        rw [List.countP_pos_iff]
        exact ⟨x, hx, by simpa using hx0⟩
      omega
    obtain ⟨hiff, hbd, hon⟩ := ccInv_final g st hinv hns
    refine ⟨st.cc, ?_, hinv.hcc, hiff, st.curCC, hbd, hon⟩
    simp only [ccLoop]
    rw [if_neg hns]
  | succ fuel ih =>
    intro st hinv hc
    by_cases hs : st.visited.sum < numVertices g
    · obtain ⟨st', hrun, hinv', hdec⟩ := cc_round g wf st hinv hs
      have heq : ccLoop g (innerFuel g) (fuel + 1) st =
          ccLoop g (innerFuel g) fuel (CCState.mk st'.cc st'.visited (st'.curCC + 1)) := by
        simp only [ccLoop]
        rw [if_pos hs, hrun]
      rw [heq]
      apply ih _ hinv'
      simp only [csrMk_curNode]
      omega
    · obtain ⟨hiff, hbd, hon⟩ := ccInv_final g st hinv hs
      refine ⟨st.cc, ?_, hinv.hcc, hiff, st.curCC, hbd, hon⟩
      simp only [ccLoop]
      rw [if_neg hs]

lemma cc_spec [Inhabited W] (g : Graph α W) (wf : CSRWF g) :
    connectedComponentsOpt g = some (connectedComponents g) ∧
    (connectedComponents g).length = numVertices g ∧
    (∀ u, u < numVertices g → ∀ v, v < numVertices g →
      ((connectedComponents g).getD u 0 = (connectedComponents g).getD v 0 ↔
        Conn g u v)) ∧
    ∃ k, (∀ u, u < numVertices g → (connectedComponents g).getD u 0 < k) ∧
      (∀ l, l < k → ∃ u, u < numVertices g ∧ (connectedComponents g).getD u 0 = l) := by
  have hinit : CCInv g (ccInit g) := by
    refine ⟨by simp [ccInit], by simp [ccInit], ?_, ?_, ?_, ?_⟩
    · intro x hx
      simp only [ccInit] at hx
      exact Or.inl (List.eq_of_mem_replicate hx)
    · intro u hu h1
      simp only [ccInit] at h1
      rw [getD_replicate_zero] at h1
      omega
    · intro l hl
      simp only [ccInit] at hl
      omega
    · intro u hu h1
      simp only [ccInit] at h1
      rw [getD_replicate_zero] at h1
      omega
  have hcnt : count0 (ccInit g).visited = numVertices g := by
    simp only [ccInit]
    unfold count0
    rw [List.countP_eq_length.mpr]
    · simp
    · intro a ha
      have := List.eq_of_mem_replicate ha
      simpa using this
  obtain ⟨out, hout, hlen, hiff, hk⟩ := ccLoop_run g wf (numVertices g) (ccInit g)
    hinit (by omega)
  have hopt : connectedComponentsOpt g = some out := hout
  have hccval : connectedComponents g = out := by
    unfold connectedComponents
    rw [hopt]
    rfl
  rw [hccval]
  exact ⟨hopt, hlen, hiff, hk⟩

lemma map_fst_getD [Inhabited W] (l : List (Nat × W)) (p : Nat) :
    (l.map Prod.fst).getD p 0 = (l.getD p default).1 := by
  induction l generalizing p with
  | nil =>
    have hd : (default : Nat × W).1 = 0 := rfl
    simp [List.getD, hd]
  | cons e t ih =>
    cases p with
    | zero => simp
    | succ p =>
      rw [List.map_cons, List.getD_cons_succ, List.getD_cons_succ]
      exact ih p

lemma adjFirsts_congr [Inhabited W] (g₁ g₂ : Graph α W)
    (h2 : g₁.idxs = g₂.idxs)
    (h3 : g₁.adjs.map Prod.fst = g₂.adjs.map Prod.fst) :
    ∀ u, adjFirsts g₁ u = adjFirsts g₂ u := by
  intro u
  have hnat : natAdjacents g₁ u = natAdjacents g₂ u := by
    unfold natAdjacents numAdjacents
    rw [h2]
  unfold adjFirsts
  rw [hnat]
  apply List.map_congr_left
  intro j _
  unfold getAdjacent
  rw [h2]
  have := congrArg (fun l => l.getD (g₂.idxs.getD u 0 + j) 0) h3
  simp only at this
  rw [map_fst_getD, map_fst_getD] at this
  exact this

lemma bfsLoop_congr [Inhabited W] (g₁ g₂ : Graph α W)
    (h2 : g₁.idxs = g₂.idxs)
    (h3 : g₁.adjs.map Prod.fst = g₂.adjs.map Prod.fst) :
    ∀ fuel q st, bfsLoop g₁ fuel q st = bfsLoop g₂ fuel q st := by
  intro fuel
  induction fuel with
  | zero =>
    intro q st
    cases q <;> rfl
  | succ fuel ih =>
    intro q st
    cases q with
    | nil => rfl
    | cons v q' =>
      simp only [bfsLoop]
      by_cases hvis : st.visited.getD v 0 ≠ 0
      · rw [if_pos hvis, if_pos hvis, ih]
      · rw [if_neg hvis, if_neg hvis, adjFirsts_congr g₁ g₂ h2 h3 v, ih]

lemma ccLoop_congr [Inhabited W] (g₁ g₂ : Graph α W)
    (h1 : numVertices g₁ = numVertices g₂)
    (h2 : g₁.idxs = g₂.idxs)
    (h3 : g₁.adjs.map Prod.fst = g₂.adjs.map Prod.fst) :
    ∀ inner fuel st, ccLoop g₁ inner fuel st = ccLoop g₂ inner fuel st := by
  intro inner fuel
  induction fuel with
  | zero =>
    intro st
    simp only [ccLoop]
    rw [h1]
  | succ fuel ih =>
    intro st
    simp only [ccLoop]
    rw [h1, bfsLoop_congr g₁ g₂ h2 h3]
    by_cases hs : st.visited.sum < numVertices g₂
    · rw [if_pos hs, if_pos hs]
      cases bfsLoop g₂ inner [findRoot st.visited] st with
      | none => rfl
      | some st' => exact ih _
    · rw [if_neg hs, if_neg hs]

lemma connectedComponents_congr [Inhabited W] (g₁ g₂ : Graph α W)
    (h1 : numVertices g₁ = numVertices g₂)
    (h2 : g₁.idxs = g₂.idxs)
    (h3 : g₁.adjs.map Prod.fst = g₂.adjs.map Prod.fst) :
    connectedComponents g₁ = connectedComponents g₂ := by
  have hlen : g₁.adjs.length = g₂.adjs.length := by
    have := congrArg List.length h3
    simpa using this
  have hinner : innerFuel g₁ = innerFuel g₂ := by
    unfold innerFuel
    rw [h1, hlen]
  have hinit : ccInit g₁ = ccInit g₂ := by
    unfold ccInit
    rw [h1]
  unfold connectedComponents connectedComponentsOpt
  rw [hinner, hinit, h1, ccLoop_congr g₁ g₂ h1 h2 h3]

/-- Claim C2: for every graph with a well-formed CSR,
`ConnectedComponents` returns an array of length `NumVertices()` whose
labels fill `[0, k)` for some `k`; two vertices get the same label if
and only if they are connected by a path (so `k` is the number of
connected components); and edge weights play no role: any graph with
the same offsets and the same neighbor indices — regardless of
weights — yields the same label array. -/
theorem claim_C2_connected_components [Inhabited W] (g : Graph α W) (h : CSRWF g) :
    (connectedComponents g).length = numVertices g ∧
    (∀ u, u < numVertices g → ∀ v, v < numVertices g →
      ((connectedComponents g).getD u 0 = (connectedComponents g).getD v 0 ↔
        Conn g u v)) ∧
    (∃ k, (∀ u, u < numVertices g → (connectedComponents g).getD u 0 < k) ∧
      (∀ l, l < k → ∃ u, u < numVertices g ∧ (connectedComponents g).getD u 0 = l)) ∧
    (∀ g₂ : Graph α W, numVertices g = numVertices g₂ → g.idxs = g₂.idxs →
      g.adjs.map Prod.fst = g₂.adjs.map Prod.fst →
      connectedComponents g = connectedComponents g₂) := by
  obtain ⟨_, hlen, hiff, hk⟩ := cc_spec g h
  exact ⟨hlen, hiff, hk, fun g₂ h1 h2 h3 => connectedComponents_congr g g₂ h1 h2 h3⟩

/-- Witness for claim C2 at a concrete one-triangle graph. -/
theorem claim_C2_witness :
    CSRWF (Graph.ofTris exV3 exDist exF) ∧
    ((connectedComponents (Graph.ofTris exV3 exDist exF)).length =
      numVertices (Graph.ofTris exV3 exDist exF) ∧
    (∀ u, u < numVertices (Graph.ofTris exV3 exDist exF) →
      ∀ v, v < numVertices (Graph.ofTris exV3 exDist exF) →
      ((connectedComponents (Graph.ofTris exV3 exDist exF)).getD u 0 =
        (connectedComponents (Graph.ofTris exV3 exDist exF)).getD v 0 ↔
        Conn (Graph.ofTris exV3 exDist exF) u v)) ∧
    (∃ k, (∀ u, u < numVertices (Graph.ofTris exV3 exDist exF) →
        (connectedComponents (Graph.ofTris exV3 exDist exF)).getD u 0 < k) ∧
      (∀ l, l < k → ∃ u, u < numVertices (Graph.ofTris exV3 exDist exF) ∧
        (connectedComponents (Graph.ofTris exV3 exDist exF)).getD u 0 = l)) ∧
    (∀ g₂ : Graph Nat Nat,
      numVertices (Graph.ofTris exV3 exDist exF) = numVertices g₂ →
      (Graph.ofTris exV3 exDist exF).idxs = g₂.idxs →
      (Graph.ofTris exV3 exDist exF).adjs.map Prod.fst = g₂.adjs.map Prod.fst →
      connectedComponents (Graph.ofTris exV3 exDist exF) = connectedComponents g₂)) :=
  ⟨by decide, claim_C2_connected_components (Graph.ofTris exV3 exDist exF) (by decide)⟩

/-- Claim C10 (implicit): `ConnectedComponents` terminates on every
graph with a well-formed CSR — the explicit fuel bounds
(`NumVertices()` outer rounds, `1 + n·(|adj| + 2)` inner steps) always
suffice, so the fueled computation returns a value. -/
theorem claim_C10_termination [Inhabited W] (g : Graph α W) (h : CSRWF g) :
    connectedComponentsOpt g = some (connectedComponents g) :=
  (cc_spec g h).1

/-- Witness for claim C10 at a concrete one-triangle graph. -/
theorem claim_C10_witness :
    connectedComponentsOpt (Graph.ofTris exV3 exDist exF) =
      some (connectedComponents (Graph.ofTris exV3 exDist exF)) :=
  claim_C10_termination (Graph.ofTris exV3 exDist exF) (by decide)

/-- Claim C5: the core is deterministic — two runs of graph
construction (any of the three constructors) and of
`ConnectedComponents` on identical inputs produce identical outputs.
The embedding of the core is a pure function of its inputs (`std::sort`
on a total order, `std::set` iteration and the queue-driven traversal
are all deterministic), so equal inputs give equal vertex, offset,
adjacency and label arrays. -/
theorem claim_C5_determinism [Inhabited α] [Inhabited W] (d : α → α → W)
    (V1 V2 : List α) (F1 F2 : List Tri) (E1 E2 : List Edge)
    (hV : V1 = V2) (hF : F1 = F2) (hE : E1 = E2) :
    Graph.ofTris V1 d F1 = Graph.ofTris V2 d F2 ∧
    Graph.ofEdgeList V1 d E1 = Graph.ofEdgeList V2 d E2 ∧
    Graph.ofEdgeSet V1 d E1 = Graph.ofEdgeSet V2 d E2 ∧
    connectedComponents (Graph.ofTris V1 d F1) = connectedComponents (Graph.ofTris V2 d F2) := by
  subst hV; subst hF; subst hE
  exact ⟨rfl, rfl, rfl, rfl⟩

/-- Witness for claim C5 at a concrete mesh. -/
theorem claim_C5_witness :
    Graph.ofTris exV3 exDist exF = Graph.ofTris exV3 exDist exF ∧
    Graph.ofEdgeList exV3 exDist [] = Graph.ofEdgeList exV3 exDist [] ∧
    Graph.ofEdgeSet exV3 exDist [] = Graph.ofEdgeSet exV3 exDist [] ∧
    connectedComponents (Graph.ofTris exV3 exDist exF) =
      connectedComponents (Graph.ofTris exV3 exDist exF) :=
  claim_C5_determinism exDist exV3 exV3 exF exF [] [] rfl rfl rfl

/-- Claim C6: construction copies the caller's vertex coordinates and
the graph is immutable afterwards — replacing the caller's array after
the constructor returns changes no result of `NumVertices`, `NumEdges`,
`NumAdjacents`, `GetVertex` or `GetAdjacent`, and the graph held in the
state is exactly the one computed from the values passed at
construction time. -/
theorem claim_C6_construction_copies [Inhabited α] [Inhabited W]
    (V V' : List α) (d : α → α → W) (F : List Tri) :
    numVertices (mutateCaller (construct V d F) V').graph
      = numVertices (construct V d F).graph ∧
    numEdges (mutateCaller (construct V d F) V').graph
      = numEdges (construct V d F).graph ∧
    (∀ i, numAdjacents (mutateCaller (construct V d F) V').graph i
      = numAdjacents (construct V d F).graph i) ∧
    (∀ i, getVertex (mutateCaller (construct V d F) V').graph i
      = getVertex (construct V d F).graph i) ∧
    (∀ i j, getAdjacent (mutateCaller (construct V d F) V').graph i j
      = getAdjacent (construct V d F).graph i j) ∧
    (mutateCaller (construct V d F) V').graph = Graph.ofTris V d F :=
  ⟨rfl, rfl, fun _ => rfl, fun _ => rfl, fun _ _ => rfl, rfl⟩

/-- Claim C7: an empty emitted triangle set is a reportable outcome and
not an error — when the dual mesh has zero triangles, the driver still
exports the mesh, prints the diagnostic message, and returns success
status `0` (and skips the weight-map stage). -/
theorem claim_C7_empty_mesh_reported (inp : DriverInput)
    (hl : inp.loadOk = true) (he : inp.exportOk = true) (hf : inp.ffRows = 0) :
    remeshDriver inp = DriverResult.mk 0 true true false := by
  cases inp
  simp only at hl he hf
  subst hl; subst he; subst hf
  rfl

/-- Witness for claim C7 at a concrete driver input. -/
theorem claim_C7_witness :
    remeshDriver (DriverInput.mk true true 0) = DriverResult.mk 0 true true false :=
  claim_C7_empty_mesh_reported (DriverInput.mk true true 0) rfl rfl rfl

/-- Counterexample to claim C1 as stated: the mesh with four points and
the single triangle `(0, 1, 2)` is valid (distinct, in-range indices),
yet for the constructed graph the offset array is `[0, 2, 4, 6, 0]` —
`off[n]` is `0` while `|adj| = 6`, and `off` is not monotone.  The
streaming loop writes the final offset at `CurNode + 1 = 3` and never
reaches the entry of the isolated vertex `3`. -/
theorem claim_C1_counterexample :
    MeshValid 4 exF ∧ exV4.length = 4 ∧
    ¬ ((Graph.ofTris exV4 exDist exF).idxs.getD 4 0
          = (Graph.ofTris exV4 exDist exF).adjs.length ∧
       ∀ i, i < 4 → (Graph.ofTris exV4 exDist exF).idxs.getD i 0
          ≤ (Graph.ofTris exV4 exDist exF).idxs.getD (i + 1) 0) := by
  decide

end Rmt



